import Mathlib

/-!
# go-gitlab-trigger-build

A shallow embedding of `main` of `src/main.go` (trigger, base-URL derivation,
build discovery, poll loop) and the properties of its specification.

The program is sequential.  Everything it asks of the outside (the HTTP
replies, the clock, the order in which `range` walks a map) is collected in a
`World`; `main` is then a function from the flags and the world to the exit
status and the trace of HTTP requests and sleeps.  `traceln` only writes log
lines and is left out.

Library behaviour that the program relies on is modelled as documented:

* `regexp`: `\d` is `[0-9]`, `.` is any character but the line feed, `$` is the
  end of the text, `x+` is greedy and `Find` returns the leftmost-first match;
* `encoding/json`: a failed `Unmarshal` leaves the target as it was; an object
  decoded into a non-nil map keeps the entries that are already there; element
  `i` of an array decoded into a slice is decoded into the element that is
  already at index `i`; a number decoded into `interface{}` is a `float64`;
* `net/http`: `NewRequest` refuses a URL with an ASCII control character;
* `fmt`: `%v` prints a `float64` as `%g` with the shortest precision, which
  switches to the exponent form from `1e+06` on.
-/

namespace GitlabTrigger

/-! ## The two regular expressions -/

/-- One element of a pattern: a single character of a class, or `x+`, a greedy
run of one or more characters of the class. -/
inductive Item where
  | one (p : Char → Bool)
  | plus (p : Char → Bool)

/-- Backtracking match of a pattern at the start of the input, in the
preference order of `regexp` (a greedy `+` first tries to take one more
character).  The result is the length of the match.  With `eot` the pattern
ends in `$` and matches only at the end of the text. -/
def matchHere (eot : Bool) : List Item → List Char → Option Nat
  | [], s => if eot && !s.isEmpty then none else some 0
  | .one p :: is, c :: cs => if p c then (matchHere eot is cs).map (· + 1) else none
  | .plus p :: is, c :: cs =>
      if p c then
        match matchHere eot (.plus p :: is) cs with
        | some n => some (n + 1)
        | none => (matchHere eot is cs).map (· + 1)
      else none
  | _ :: _, [] => none

/-- A literal character of a pattern. -/
def lit (c : Char) : Item := .one (fun x => x == c)

/-- The pattern `\d+`: a run of ASCII digits. -/
def digits : Item := .plus Char.isDigit

/-- The class `.`: every character but the line feed. -/
def dot (c : Char) : Bool := c != '\n'

/-- The pattern of line 65 between `^` and `$`: `\d+\.\d+\.\d+\.\d+`. -/
def versionItems : List Item :=
  [digits, lit '.', digits, lit '.', digits, lit '.', digits]

/-- The call `regexp.MatchString` with the pattern of line 65; the pattern starts with
`^`, so a match can only start at the first character. -/
def versionMatched (version : String) : Bool :=
  (matchHere true versionItems version.toList).isSome

/-- The pattern of line 96 after `^`: `http.+projects\/\d+\/`. -/
def baseItems : List Item :=
  [lit 'h', lit 't', lit 't', lit 'p', .plus dot,
   lit 'p', lit 'r', lit 'o', lit 'j', lit 'e', lit 'c', lit 't', lit 's', lit '/',
   digits, lit '/']

/-- The call `re.Find([]byte(url))` of line 97: the matched prefix, empty when the
pattern does not match. -/
def findBase (url : String) : String :=
  match matchHere false baseItems url.toList with
  | some n => String.mk (url.toList.take n)
  | none => ""

/-! ## Data -/

/-- The command line flags of lines 33–39. -/
structure Flags where
  ref : String
  tag : Bool
  version : String
  token : String
  url : String
  wait : Bool
  usertoken : String

/-- The struct `context` of line 18; `start` is a reading of the clock. -/
structure context where
  done : Bool
  start : Nat
deriving DecidableEq, Repr

/-- A value that `json.Unmarshal` stores in an `interface{}`.  `num n` is the
`float64` whose value is the integer `n` below `2^53`, where every integer is
a `float64` and is its own shortest decimal form; `other v` is any other value
the program only ever prints (a larger, negative or fractional number, an
array, an object), given by its `%v` text. -/
inductive JVal where
  | null
  | bool (b : Bool)
  | num (n : Fin 9007199254740992)
  | str (s : String)
  | other (v : String)
deriving DecidableEq, Repr

/-- A `map[string]interface{}`, as the list of its entries; the first entry
with a key is the one that counts. -/
abbrev Obj := List (String × JVal)

/-- The type `url.Values`: the values of each key, in the order they were added. -/
abbrev Values := List (String × List String)

/-- The method `Values.Add`: append the value to the values of the key. -/
def Values.Add : Values → String → String → Values
  | [], key, value => [(key, [value])]
  | (k, vs) :: rest, key, value =>
      if k = key then (k, vs ++ [value]) :: rest else (k, vs) :: Values.Add rest key value

/-- The map `ids` of line 104, as the list of its entries (keys distinct). -/
abbrev Ids := List (String × context)

/-- The assignment `ids[key] = c`. -/
def mapSet : Ids → String → context → Ids
  | [], key, c => [(key, c)]
  | (k, v) :: rest, key, c =>
      if k = key then (k, c) :: rest else (k, v) :: mapSet rest key c

/-- One element of a JSON array that is decoded into a slice of maps. -/
inductive Elem where
  /-- a JSON object: its entries are stored in the map of the element -/
  | object (o : Obj)
  /-- the value `null`: the map of the element becomes the nil map -/
  | null
  /-- any other value: an error is recorded, the element is left as it was and
  decoding goes on -/
  | mismatch
deriving DecidableEq

/-- What the body of a list reply is to `json.Unmarshal(body, &m)` of line 118. -/
inductive ListBody where
  /-- an error is returned and `m` is left as it was (the body is not JSON, or
  not a JSON array) -/
  | invalid
  /-- a JSON array with these elements (`null` counts as the empty array: both
  leave `m` with no element) -/
  | decoded (elems : List Elem)
deriving DecidableEq

/-- The element of the slice after one element of the array is decoded into
it: an object is merged into the map that is there, its entries first. -/
def storeElem : Elem → Obj → Obj
  | .object o, old => o ++ old
  | .null, _ => []
  | .mismatch, old => old

/-- The elements of the slice after the array is decoded into it: element `i`
of the array goes into element `i` of the slice, a new element starts from the
nil map, and the slice is cut to the length of the array.  What the backing
array holds beyond the length of `m` is never decoded into in this program: an
array with an element ends the attempt loop of its scope, the empty array
allocates a new slice, and there are two scopes. -/
def mergeElems : List Elem → List Obj → List Obj
  | [], _ => []
  | e :: es, [] => storeElem e [] :: mergeElems es []
  | e :: es, old :: m => storeElem e old :: mergeElems es m

/-- The slice `m` after `json.Unmarshal(body, &m)` of line 118. -/
def unmarshalList : ListBody → List Obj → List Obj
  | .invalid, m => m
  | .decoded elems, m => mergeElems elems m

/-- What `json.Unmarshal(body, &m2)` of line 168 does to the map `m2`. -/
inductive DetailBody where
  /-- an error is returned and `m2` is left as it was -/
  | invalid
  /-- the body is `null`: `m2` becomes the nil map -/
  | null
  /-- the body is a JSON object: its entries are stored in `m2` -/
  | object (o : Obj)
deriving DecidableEq

/-- The outcome of `client.Do` for a GET. -/
inductive Reply (β : Type) where
  /-- the request failed: `err != nil` -/
  | requestError
  /-- a response with this body -/
  | body (b : β)
deriving DecidableEq

/-- Everything outside the program. -/
structure World where
  /-- the status of the reply to the trigger POST; `none` when no request
  could be built or no response came back (`resp` is nil), as for a URL with a
  control character (see `Admissible`) -/
  trigger : Option String
  /-- the reply to attempt `i` (from 0) of the list request of a scope -/
  list : String → Nat → Reply ListBody
  /-- the reply to the detail request for a build in a poll round -/
  detail : Nat → String → Reply DetailBody
  /-- the order in which `range ids` walks the map in a poll round -/
  picks : Nat → List Nat
  /-- the successive readings of `time.Now()` -/
  now : Nat → Nat

/-- The observable steps of a run. -/
inductive Event where
  /-- lines 80–82: the trigger POST to `url` with the form `data` -/
  | post (url : String) (data : Values)
  /-- lines 110–112: GET `baseurl + "builds?scope=" + scope` -/
  | getList (baseurl scope : String)
  /-- lines 160–162: GET `baseurl + "builds/" + key` -/
  | getBuild (baseurl key : String)
  /-- a call of `time.Sleep` for so many seconds -/
  | sleep (seconds : Nat)
deriving DecidableEq, Repr

/-- How a run ends. -/
inductive Exit where
  /-- the call `os.Exit(n)`, or the return from `main` for `n = 0` -/
  | code (n : Nat)
  /-- the nil dereference of line 81 or 83 -/
  | nilDeref
  /-- the poll loop is still running when the fuel is used up -/
  | polling
deriving DecidableEq, Repr

/-! ## Trigger (lines 41–83) -/

/-- Lines 41–78: the checks of the flags and the form of the trigger request;
`none` stands for `os.Exit(1)`. -/
def buildForm (f : Flags) : Option Values :=
  if f.ref = "" then none
  else if f.token = "" then none
  else if f.url = "" then none
  else
    let data : Values := []
    if f.tag then
      if f.version.length < 1 then none
      else if !versionMatched f.version then none
      else
        let data := data.Add "ref" f.ref
        let data := data.Add "token" f.token
        let data := data.Add "variables[FULL_VERSION]" f.version
        some data
    else
      let data := data.Add "ref" f.ref
      let data := data.Add "token" f.token
      some data

/-! ## Discovery (lines 104–143) -/

/-- Lines 108–129: the attempt loop of one scope, `n` attempts left, `i` the
loop counter, `m` the slice declared at line 105.  The result is `m` after the
loop and the requests and sleeps of the loop. -/
def attempts (w : World) (baseurl scope : String) : Nat → Nat → List Obj → List Obj × List Event
  | 0, _, m => (m, [])
  | n + 1, i, m =>
      match w.list scope i with
      | .requestError =>
          let r := attempts w baseurl scope n (i + 1) m
          (r.1, .getList baseurl scope :: r.2)
      | .body b =>
          let m := unmarshalList b m
          if m.length > 0 then (m, [.getList baseurl scope])
          else
            let r := attempts w baseurl scope n (i + 1) m
            (r.1, .getList baseurl scope :: .sleep 2 :: r.2)

/-- The digits of `ds` without the zeros at the end. -/
def stripZeros (ds : List Char) : List Char :=
  (ds.reverse.dropWhile (· == '0')).reverse

/-- The verb `%v` for the `float64` with the integer value `n` below `2^53`:
`%g` with the shortest precision, whose digits are the decimal digits of `n`
without the zeros at the end.  The exponent form is used when the decimal
exponent is 6 or more; its exponent has at least two digits. -/
def formatFloat (n : Fin 9007199254740992) : String :=
  let ds := Nat.toDigits 10 n.val
  let exp := ds.length - 1
  if exp < 6 then String.mk ds
  else
    let mant := match stripZeros ds with
      | [] => ['0']
      | [d] => [d]
      | d :: rest => d :: '.' :: rest
    let e := if exp < 10 then '0' :: Nat.toDigits 10 exp else Nat.toDigits 10 exp
    String.mk (mant ++ 'e' :: '+' :: e)

/-- The call `fmt.Sprintf("%v", bld)` of line 137. -/
def sprintV : JVal → String
  | .null => "<nil>"
  | .bool b => if b then "true" else "false"
  | .num n => formatFloat n
  | .str s => s
  | .other v => v

/-- Lines 131–142: the records of `m` with the caller's ref are entered in
`ids`; `clock` counts the readings of `time.Now()`. -/
def track (w : World) (ref : String) : List Obj → Ids × Nat → Ids × Nat
  | [], s => s
  | items :: rest, (ids, clock) =>
      match items.lookup "ref" with
      | some r =>
          if r = JVal.str ref then
            match items.lookup "id" with
            | some bld =>
                let str := sprintV bld
                track w ref rest (mapSet ids str { done := false, start := w.now clock }, clock + 1)
            | none => track w ref rest (ids, clock)
          else track w ref rest (ids, clock)
      | none => track w ref rest (ids, clock)

/-- The state of discovery: the slice `m`, the map `ids`, the clock. -/
structure Disc where
  m : List Obj
  ids : Ids
  clock : Nat

/-- The body of the loop of line 107 for one scope. -/
def scopeStep (w : World) (baseurl ref scope : String) (d : Disc) : Disc × List Event :=
  let r := attempts w baseurl scope 5 0 d.m
  let t := track w ref r.1 (d.ids, d.clock)
  ({ m := r.1, ids := t.1, clock := t.2 }, r.2)

/-- The loop of line 107 over the given scopes. -/
def discover (w : World) (baseurl ref : String) : List String → Disc → Disc × List Event
  | [], d => (d, [])
  | scope :: rest, d =>
      let r := scopeStep w baseurl ref scope d
      let r' := discover w baseurl ref rest r.1
      (r'.1, r.2 ++ r'.2)

/-- The scopes of line 106. -/
def scopes : List String := ["running", "pending"]

/-! ## Poll loop (lines 152–201) -/

/-- The state of the poll loop: the map `ids` and the map `m2` of line 152. -/
structure Poll where
  ids : Ids
  m2 : Obj

/-- The test of line 178. -/
def isTerminal (status : JVal) : Bool :=
  status == .str "success" || status == .str "failed" || status == .str "canceled"

/-- Lines 156–186: the body of the `range` loop for the entry with this key.
The reading of the clock at line 180 only feeds a log line. -/
def visit (w : World) (baseurl : String) (round : Nat) (key : String) (st : Poll) :
    Poll × List Event :=
  match st.ids.lookup key with
  | none => (st, [])
  | some val =>
      if val.done then (st, [])
      else
        match w.detail round key with
        | .requestError => (st, [.getBuild baseurl key])
        | .body .invalid => (st, [.getBuild baseurl key])
        | .body .null => ({ st with m2 := [] }, [.getBuild baseurl key])
        | .body (.object o) =>
            let m2 := o ++ st.m2
            match m2.lookup "ref", m2.lookup "name", m2.lookup "status" with
            | some _, some _, some status =>
                if isTerminal status then
                  ({ ids := mapSet st.ids key { done := true, start := val.start }, m2 := m2 },
                    [.getBuild baseurl key])
                else ({ st with m2 := m2 }, [.getBuild baseurl key])
            | _, _, _ => ({ st with m2 := m2 }, [.getBuild baseurl key])

/-- The `range` loop of line 155 over the keys in the order given. -/
def visitAll (w : World) (baseurl : String) (round : Nat) : List String → Poll → Poll × List Event
  | [], st => (st, [])
  | key :: rest, st =>
      let r := visit w baseurl round key st
      let r' := visitAll w baseurl round rest r.1
      (r'.1, r.2 ++ r'.2)

/-- An order of the keys: each key is put into the order of the later ones at
the place the next pick names.  Every order of the keys comes from some picks. -/
def permute : List Nat → List String → List String
  | _, [] => []
  | picks, x :: xs =>
      let rest := permute picks.tail xs
      rest.insertIdx (picks.headD 0 % (rest.length + 1)) x

/-- One round: lines 155–187. -/
def pollRound (w : World) (baseurl : String) (round : Nat) (st : Poll) : Poll × List Event :=
  visitAll w baseurl round (permute (w.picks round) (st.ids.map Prod.fst)) st

/-- The loop of lines 189–194: is every record done? -/
def allDone (ids : Ids) : Bool := ids.all (fun e => e.2.done)

/-- The loop of line 153, for at most `fuel` rounds. -/
def pollLoop (w : World) (baseurl : String) : Nat → Nat → Poll → Exit × Poll × List Event
  | 0, _, st => (.polling, st, [])
  | fuel + 1, round, st =>
      let r := pollRound w baseurl round st
      if allDone r.1.ids then (.code 0, r.1, r.2)
      else
        let r' := pollLoop w baseurl fuel (round + 1) r.1
        (r'.1, r'.2.1, r.2 ++ .sleep 10 :: r'.2.2)

/-! ## The program -/

/-- The exit status and the trace of a run. -/
structure Run where
  exit : Exit
  trace : List Event

/-- The function `main`; the poll loop runs for at most `fuel` rounds. -/
def main (w : World) (fuel : Nat) (f : Flags) : Run :=
  match buildForm f with
  | none => ⟨.code 1, []⟩
  | some data =>
      let post := Event.post f.url data
      match w.trigger with
      | none => ⟨.nilDeref, [post]⟩
      | some _ =>
          if !f.wait then ⟨.code 0, [post]⟩
          else if f.usertoken = "" then ⟨.code 1, [post]⟩
          else
            let baseurl := findBase f.url
            if baseurl.length = 0 then ⟨.code 1, [post]⟩
            else
              let d := discover w baseurl f.ref scopes { m := [], ids := [], clock := 0 }
              if d.1.ids.length < 1 then ⟨.code 1, post :: d.2⟩
              else
                let p := pollLoop w baseurl fuel 0 { ids := d.1.ids, m2 := [] }
                ⟨p.1, post :: (d.2 ++ p.2.2)⟩

/-! ## Notions of the specification -/

/-- A non-empty run of ASCII decimal digits. -/
def IsDigitRun (ds : List Char) : Prop :=
  ds ≠ [] ∧ ∀ c ∈ ds, '0' ≤ c ∧ c ≤ '9'

/-- Exactly four non-empty runs of ASCII decimal digits separated by single
dots, with nothing before or after. -/
def FourDotted (v : String) : Prop :=
  ∃ a b c d, IsDigitRun a ∧ IsDigitRun b ∧ IsDigitRun c ∧ IsDigitRun d ∧
    v.toList = a ++ '.' :: (b ++ '.' :: (c ++ '.' :: d))

/-- The trigger POST. -/
def Event.isPost : Event → Bool
  | .post _ _ => true
  | _ => false

/-- The base URL as the claim words it: "http", one or more characters,
"projects/", one or more digits, "/". -/
def ClaimedBase (p : List Char) : Prop :=
  ∃ mid ds, mid ≠ [] ∧ IsDigitRun ds ∧
    p = "http".toList ++ mid ++ "projects/".toList ++ ds ++ ['/']

/-- The base URL with the middle part free of line feeds. -/
def BaseShape (p : List Char) : Prop :=
  ∃ mid ds, mid ≠ [] ∧ (∀ c ∈ mid, c ≠ '\n') ∧ IsDigitRun ds ∧
    p = "http".toList ++ mid ++ "projects/".toList ++ ds ++ ['/']

/-- The URL holds an ASCII control character; `http.NewRequest` of line 80
refuses such a URL. -/
def hasCTL (url : String) : Bool :=
  url.toList.any (fun c => decide (c.val < 32) || c.val == 127)

/-- The worlds that can be: when the URL holds a control character no request
is built and no response comes back (the run ends at line 81). -/
def Admissible (w : World) (f : Flags) : Prop :=
  hasCTL f.url = true → w.trigger = none

/-- The URL has no part `projects/<digits>/`. -/
def LacksProject (url : List Char) : Prop :=
  ¬ ∃ pre ds post, IsDigitRun ds ∧ url = pre ++ "projects/".toList ++ ds ++ '/' :: post

/-- A list request. -/
def Event.isGetList : Event → Bool
  | .getList _ _ => true
  | _ => false

/-- A record of the poll loop that keeps its key and its start and does not go
back from done to not done. -/
def Kept (a b : String × context) : Prop :=
  a.1 = b.1 ∧ a.2.start = b.2.start ∧ (a.2.done = true → b.2.done = true)

/-- The state at the end of discovery in a run that gets there. -/
def discovered (w : World) (f : Flags) : Disc × List Event :=
  discover w (findBase f.url) f.ref scopes { m := [], ids := [], clock := 0 }

/-- The number of list requests in a trace. -/
def requests (es : List Event) : Nat := es.countP Event.isGetList

/-! ## Example runs -/

/-- A build record of a list reply: `{"ref": ref, "id": id}`. -/
def buildItem (ref : String) (id : Fin 9007199254740992) : Obj :=
  [("ref", .str ref), ("id", .num id)]

/-- The trigger is answered; every GET fails on the way. -/
def deafWorld : World :=
  { trigger := some "201 Created"
    list := fun _ _ => .requestError
    detail := fun _ _ => .requestError
    picks := fun _ => []
    now := fun n => n }

/-- The scope `running` lists one build; every reply for `pending` has a body
that is not JSON. -/
def staleWorld : World :=
  { deafWorld with
    list := fun scope _ =>
      if scope = "running" then .body (.decoded [.object (buildItem "main" 101)])
      else .body .invalid }

/-- The scope `running` lists build 101; for `pending` the first reply has a
body that is not JSON and the later ones list build 202. -/
def scriptWorld : World :=
  { deafWorld with
    list := fun scope i =>
      if scope = "running" then .body (.decoded [.object (buildItem "main" 101)])
      else if i = 0 then .body .invalid
      else .body (.decoded [.object (buildItem "main" 202)]) }

/-- The scope `running` lists `{"ref":"main","id":7}`, the scope `pending` lists
`{"id":101}`, a record without a ref. -/
def mergeWorld : World :=
  { deafWorld with
    list := fun scope _ =>
      if scope = "running" then .body (.decoded [.object (buildItem "main" 7)])
      else .body (.decoded [.object [("id", .num 101)]]) }

/-- Four empty lists, then a list with one build. -/
def fifthWorld : World :=
  { deafWorld with
    list := fun _ i =>
      if i < 4 then .body (.decoded [])
      else .body (.decoded [.object (buildItem "main" 101)]) }

/-- The build is reported `pending`, then `running`, then `success`. -/
def statusWorld : World :=
  { deafWorld with
    detail := fun round _ =>
      .body (.object [("ref", .str "main"), ("name", .str "build"),
        ("status", .str (if round = 0 then "pending" else if round = 1 then "running"
          else "success"))]) }

/-- The detail reply has a status and nothing else: `{"status": "success"}`. -/
def namelessWorld : World :=
  { deafWorld with detail := fun _ _ => .body (.object [("status", .str "success")]) }

/-- A tag build that waits. -/
def exampleFlags : Flags :=
  { ref := "main", tag := true, version := "1.2.3.4", token := "t",
    url := "http://gitlab.example.com/api/v4/projects/42/trigger/pipeline",
    wait := true, usertoken := "u" }

/-- The base URL of `exampleFlags`. -/
def exampleBase : String := "http://gitlab.example.com/api/v4/projects/42/"

/-- One tracked build that is not done. -/
def onePending : Poll := { ids := [("101", { done := false, start := 7 })], m2 := [] }

/-! ## The matcher -/

theorem matchHere_one_cons (e : Bool) (p : Char → Bool) (is : List Item) (c : Char)
    (cs : List Char) (n : Nat) :
    matchHere e (.one p :: is) (c :: cs) = some n ↔
      p c = true ∧ ∃ k, matchHere e is cs = some k ∧ n = k + 1 := by
  simp only [matchHere]
  by_cases h : p c = true
  · simp only [h, if_true, true_and]
    cases matchHere e is cs with
    | none => simp
    | some k => simp [eq_comm]
  · simp [h]

theorem matchHere_lit_cons (e : Bool) (a : Char) (is : List Item) (c : Char)
    (cs : List Char) (n : Nat) :
    matchHere e (lit a :: is) (c :: cs) = some n ↔
      c = a ∧ ∃ k, matchHere e is cs = some k ∧ n = k + 1 := by
  unfold lit
  rw [matchHere_one_cons]
  simp

theorem matchHere_cons_nil (e : Bool) (it : Item) (is : List Item) :
    matchHere e (it :: is) [] = none := by
  cases it <;> simp [matchHere]

/-- A greedy run matches exactly when some non-empty run of the class is
followed by a match of the rest. -/
theorem matchHere_plus_isSome (e : Bool) (p : Char → Bool) (is : List Item) (s : List Char) :
    (matchHere e (.plus p :: is) s).isSome = true ↔
      ∃ j, 1 ≤ j ∧ j ≤ s.length ∧ (∀ c ∈ s.take j, p c = true) ∧
        (matchHere e is (s.drop j)).isSome = true := by
  induction s with
  | nil =>
      simp [matchHere]
      intro j h1 h2; omega
  | cons c cs ih =>
      simp only [matchHere]
      by_cases h : p c = true
      · simp only [h, if_true]
        constructor
        · intro hs
          cases hrec : matchHere e (.plus p :: is) cs with
          | some n0 =>
              have h0 : (matchHere e (.plus p :: is) cs).isSome = true := by simp [hrec]
              obtain ⟨j, hj1, hj2, hj3, hj4⟩ := ih.mp h0
              refine ⟨j + 1, by omega, by simp; omega, ?_, ?_⟩
              · intro x hx
                simp only [List.take_succ_cons, List.mem_cons] at hx
                rcases hx with rfl | hx
                · exact h
                · exact hj3 x hx
              · simpa using hj4
          | none =>
              rw [hrec] at hs
              refine ⟨1, le_refl _, by simp, ?_, ?_⟩
              · intro x hx
                simp at hx
                rw [hx]; exact h
              · cases h2 : matchHere e is cs with
                | none => simp [h2] at hs
                | some k => simp [h2]
        · rintro ⟨j, hj1, hj2, hj3, hj4⟩
          cases hrec : matchHere e (.plus p :: is) cs with
          | some n0 => simp
          | none =>
              obtain ⟨j', rfl⟩ : ∃ j', j = j' + 1 := ⟨j - 1, by omega⟩
              rcases Nat.eq_zero_or_pos j' with rfl | hpos
              · simp at hj4
                cases h2 : matchHere e is cs with
                | none => simp [h2] at hj4
                | some k => simp
              · exfalso
                have : (matchHere e (.plus p :: is) cs).isSome = true := by
                  refine ih.mpr ⟨j', hpos, by simp at hj2; omega, ?_, by simpa using hj4⟩
                  intro x hx
                  exact hj3 x (by simp [List.take_succ_cons, hx])
                simp [hrec] at this
      · simp only [h]
        simp
        intro j hj1 hj2 hj3
        exfalso
        obtain ⟨j', rfl⟩ : ∃ j', j = j' + 1 := ⟨j - 1, by omega⟩
        exact h (hj3 c (by simp))

/-- The value of a greedy run: the longest run of the class after which the
rest matches. -/
theorem matchHere_plus_some (e : Bool) (p : Char → Bool) (is : List Item) (s : List Char)
    (n : Nat) (hn : matchHere e (.plus p :: is) s = some n) :
    ∃ j k, n = j + k ∧ 1 ≤ j ∧ j ≤ s.length ∧ (∀ c ∈ s.take j, p c = true) ∧
      matchHere e is (s.drop j) = some k ∧
      ∀ j', j < j' → j' ≤ s.length → (∀ c ∈ s.take j', p c = true) →
        matchHere e is (s.drop j') = none := by
  induction s generalizing n with
  | nil => simp [matchHere] at hn
  | cons c cs ih =>
      simp only [matchHere] at hn
      by_cases h : p c = true
      · simp only [h, if_true] at hn
        cases hrec : matchHere e (.plus p :: is) cs with
        | some n0 =>
            rw [hrec] at hn
            simp at hn
            obtain ⟨j, k, hjk, hj1, hj2, hj3, hj4, hj5⟩ := ih n0 hrec
            refine ⟨j + 1, k, by omega, by omega, by simp; omega, ?_, by simpa using hj4, ?_⟩
            · intro x hx
              simp only [List.take_succ_cons, List.mem_cons] at hx
              rcases hx with rfl | hx
              · exact h
              · exact hj3 x hx
            · intro j' hlt hle hall
              obtain ⟨j'', rfl⟩ : ∃ j'', j' = j'' + 1 := ⟨j' - 1, by omega⟩
              have := hj5 j'' (by omega) (by simp at hle; omega)
                (fun x hx => hall x (by simp [List.take_succ_cons, hx]))
              simpa using this
        | none =>
            rw [hrec] at hn
            cases h2 : matchHere e is cs with
            | none => simp [h2] at hn
            | some k =>
                simp [h2] at hn
                refine ⟨1, k, by omega, le_refl _, by simp, ?_, by simpa using h2, ?_⟩
                · intro x hx
                  simp at hx
                  rw [hx]; exact h
                · intro j' hlt hle hall
                  obtain ⟨j'', rfl⟩ : ∃ j'', j' = j'' + 1 := ⟨j' - 1, by omega⟩
                  by_contra hne
                  have : (matchHere e (.plus p :: is) cs).isSome = true := by
                    refine (matchHere_plus_isSome e p is cs).mpr
                      ⟨j'', by omega, by simp at hle; omega, ?_, ?_⟩
                    · intro x hx
                      exact hall x (by simp [List.take_succ_cons, hx])
                    · simp at hne
                      cases h3 : matchHere e is (List.drop j'' cs) with
                      | none => exact absurd h3 hne
                      | some _ => simp
                  simp [hrec] at this
      · simp [h] at hn

theorem isDigit_iff (c : Char) : c.isDigit = true ↔ '0' ≤ c ∧ c ≤ '9' := by
  simp [Char.isDigit, Char.le_def, UInt32.le_def]

theorem isDigitRun_take {s : List Char} {j : Nat} (h1 : 1 ≤ j) (h2 : j ≤ s.length)
    (h : ∀ c ∈ s.take j, c.isDigit = true) : IsDigitRun (s.take j) := by
  refine ⟨?_, fun c hc => (isDigit_iff c).mp (h c hc)⟩
  intro h0
  have := congrArg List.length h0
  rw [List.length_take, List.length_nil] at this
  omega

theorem matchHere_plus_cons (e : Bool) (p : Char → Bool) (is : List Item) (c : Char)
    (cs : List Char) :
    matchHere e (.plus p :: is) (c :: cs) =
      if p c = true then
        match matchHere e (.plus p :: is) cs with
        | some n => some (n + 1)
        | none => (matchHere e is cs).map (· + 1)
      else none := by
  rw [matchHere]

theorem matchHere_lit_cons_ne (e : Bool) (a : Char) (is : List Item) (c : Char)
    (cs : List Char) (h : c ≠ a) : matchHere e (lit a :: is) (c :: cs) = none := by
  cases hm : matchHere e (lit a :: is) (c :: cs) with
  | none => rfl
  | some n => exact absurd ((matchHere_lit_cons e a is c cs n).mp hm).1 h

theorem matchHere_lit_cons_self (e : Bool) (a : Char) (is : List Item) (cs : List Char) :
    matchHere e (lit a :: is) (a :: cs) = (matchHere e is cs).map (· + 1) := by
  simp [lit, matchHere]

/-- A run of digits followed by a separator that is not a digit: the greedy
run takes the whole run. -/
theorem matchHere_digits_sep (e : Bool) (a : Char) (ha : a.isDigit = false) (is : List Item)
    (ds rest : List Char) (hds : IsDigitRun ds) :
    matchHere e (digits :: lit a :: is) (ds ++ a :: rest) =
      (matchHere e is rest).map (· + (ds.length + 1)) := by
  obtain ⟨hne, hall⟩ := hds
  induction ds with
  | nil => exact absurd rfl hne
  | cons d ds ih =>
      have hd : d.isDigit = true := (isDigit_iff d).mpr (hall d (by simp))
      have hall' : ∀ c ∈ ds, '0' ≤ c ∧ c ≤ '9' := fun c hc => hall c (by simp [hc])
      rw [List.cons_append]
      unfold digits
      rw [matchHere_plus_cons, if_pos hd]
      cases ds with
      | nil =>
          rw [List.nil_append, matchHere_plus_cons, if_neg (by simp [ha]),
            matchHere_lit_cons_self]
          cases matchHere e is rest <;> simp
      | cons d' ds' =>
          have ih' := ih (by simp) hall'
          have hd' : d'.isDigit = true := (isDigit_iff d').mpr (hall' d' (by simp))
          have hda : d' ≠ a := by
            rintro rfl
            rw [ha] at hd'
            exact Bool.noConfusion hd'
          unfold digits at ih'
          rw [ih']
          cases hr : matchHere e is rest with
          | none =>
              rw [List.cons_append, matchHere_lit_cons_ne _ _ _ _ _ hda]
              rfl
          | some k =>
              simp
              omega

theorem matchHere_digits_end (s : List Char) (hs : IsDigitRun s) :
    matchHere true [digits] s = some s.length := by
  obtain ⟨hne, hall⟩ := hs
  induction s with
  | nil => exact absurd rfl hne
  | cons d ds ih =>
      have hd : d.isDigit = true := (isDigit_iff d).mpr (hall d (by simp))
      unfold digits
      rw [matchHere_plus_cons, if_pos hd]
      cases ds with
      | nil => simp [matchHere]
      | cons d' ds' =>
          have ih' := ih (by simp) (fun c hc => hall c (by simp [hc]))
          unfold digits at ih'
          rw [ih']
          simp

/-- A run of digits and a separator at the head of a match. -/
theorem matchHere_digits_lit_some (e : Bool) (a : Char) (is : List Item) (s : List Char)
    (n : Nat) (hn : matchHere e (digits :: lit a :: is) s = some n) :
    ∃ ds rest k, IsDigitRun ds ∧ s = ds ++ a :: rest ∧ matchHere e is rest = some k ∧
      n = ds.length + 1 + k := by
  obtain ⟨j, k, hjk, hj1, hj2, hj3, hj4, -⟩ := matchHere_plus_some e _ _ s n hn
  cases hdrop : s.drop j with
  | nil => rw [hdrop, matchHere_cons_nil] at hj4; exact Option.noConfusion hj4
  | cons c cs =>
      rw [hdrop, matchHere_lit_cons] at hj4
      obtain ⟨rfl, k', hk', rfl⟩ := hj4
      refine ⟨s.take j, cs, k', isDigitRun_take hj1 hj2 hj3, ?_, hk', ?_⟩
      · rw [← hdrop, List.take_append_drop]
      · simp [List.length_take, Nat.min_eq_left hj2]; omega

theorem matchHere_digits_eot_some (s : List Char) (n : Nat)
    (hn : matchHere true [digits] s = some n) : IsDigitRun s := by
  obtain ⟨j, k, hjk, hj1, hj2, hj3, hj4, -⟩ := matchHere_plus_some true _ _ s n hn
  cases hdrop : s.drop j with
  | nil =>
      have : s.take j = s := by
        have := List.take_append_drop j s
        rw [hdrop, List.append_nil] at this
        exact this
      rw [← this]
      exact isDigitRun_take hj1 hj2 hj3
  | cons c cs => rw [hdrop] at hj4; simp [matchHere] at hj4

theorem dot_not_digit : '.'.isDigit = false := by decide

/-- The pattern of line 65 accepts exactly the four-component versions. -/
theorem versionMatched_iff (v : String) : versionMatched v = true ↔ FourDotted v := by
  unfold versionMatched FourDotted versionItems
  constructor
  · intro h
    obtain ⟨n, hm⟩ := Option.isSome_iff_exists.mp h
    · obtain ⟨a, r1, k1, ha, h1, hm1, -⟩ := matchHere_digits_lit_some _ _ _ _ _ hm
      obtain ⟨b, r2, k2, hb, h2, hm2, -⟩ := matchHere_digits_lit_some _ _ _ _ _ hm1
      obtain ⟨c, r3, k3, hc, h3, hm3, -⟩ := matchHere_digits_lit_some _ _ _ _ _ hm2
      have hd := matchHere_digits_eot_some _ _ hm3
      exact ⟨a, b, c, r3, ha, hb, hc, hd, by rw [h1, h2, h3]⟩
  · rintro ⟨a, b, c, d, ha, hb, hc, hd, hv⟩
    rw [hv, matchHere_digits_sep _ _ dot_not_digit _ _ _ ha,
      matchHere_digits_sep _ _ dot_not_digit _ _ _ hb,
      matchHere_digits_sep _ _ dot_not_digit _ _ _ hc, matchHere_digits_end _ hd]
    simp

/-! ## The trace of a run -/

theorem attempts_events (w : World) (baseurl scope : String) (n i : Nat) (m : List Obj) :
    ∀ e ∈ (attempts w baseurl scope n i m).2, e = .getList baseurl scope ∨ e = .sleep 2 := by
  induction n generalizing i m with
  | zero => simp [attempts]
  | succ n ih =>
      intro e he
      rw [attempts] at he
      cases hl : w.list scope i with
      | requestError =>
          rw [hl] at he
          simp only [List.mem_cons] at he
          rcases he with rfl | he
          · exact Or.inl rfl
          · exact ih _ _ e he
      | body b =>
          rw [hl] at he
          simp only at he
          split at he
          · simp only [List.mem_singleton] at he
            exact Or.inl he
          · simp only [List.mem_cons] at he
            rcases he with rfl | rfl | he
            · exact Or.inl rfl
            · exact Or.inr rfl
            · exact ih _ _ e he

theorem discover_events (w : World) (baseurl ref : String) (ss : List String) (d : Disc) :
    ∀ e ∈ (discover w baseurl ref ss d).2,
      (∃ scope ∈ ss, e = .getList baseurl scope) ∨ e = .sleep 2 := by
  induction ss generalizing d with
  | nil => simp [discover]
  | cons s ss ih =>
      intro e he
      simp only [discover, scopeStep, List.mem_append] at he
      rcases he with he | he
      · rcases attempts_events _ _ _ _ _ _ e he with h | h
        · exact Or.inl ⟨s, by simp, h⟩
        · exact Or.inr h
      · rcases ih _ e he with ⟨s', hs', h⟩ | h
        · exact Or.inl ⟨s', by simp [hs'], h⟩
        · exact Or.inr h

theorem discover_not_post (w : World) (baseurl ref : String) (ss : List String) (d : Disc) :
    ∀ e ∈ (discover w baseurl ref ss d).2, e.isPost = false := by
  intro e he
  rcases discover_events _ _ _ _ _ e he with ⟨s, -, rfl⟩ | rfl <;> rfl

theorem visit_events (w : World) (baseurl : String) (round : Nat) (key : String) (st : Poll) :
    (visit w baseurl round key st).2 = [] ∨
      (visit w baseurl round key st).2 = [.getBuild baseurl key] := by
  unfold visit
  split
  · exact Or.inl rfl
  · split
    · exact Or.inl rfl
    · split
      · exact Or.inr rfl
      · exact Or.inr rfl
      · exact Or.inr rfl
      · simp only
        split
        · split <;> exact Or.inr rfl
        · exact Or.inr rfl

theorem visitAll_events (w : World) (baseurl : String) (round : Nat) (keys : List String)
    (st : Poll) :
    ∀ e ∈ (visitAll w baseurl round keys st).2, ∃ key ∈ keys, e = .getBuild baseurl key := by
  induction keys generalizing st with
  | nil => simp [visitAll]
  | cons k ks ih =>
      intro e he
      simp only [visitAll, List.mem_append] at he
      rcases he with he | he
      · rcases visit_events w baseurl round k st with h | h
        · rw [h] at he; simp at he
        · rw [h] at he
          simp only [List.mem_singleton] at he
          exact ⟨k, by simp, he⟩
      · obtain ⟨key, hk, rfl⟩ := ih _ e he
        exact ⟨key, by simp [hk], rfl⟩

theorem pollLoop_not_post (w : World) (baseurl : String) (fuel round : Nat) (st : Poll) :
    ∀ e ∈ (pollLoop w baseurl fuel round st).2.2, e.isPost = false := by
  induction fuel generalizing round st with
  | zero => simp [pollLoop]
  | succ fuel ih =>
      intro e he
      rw [pollLoop] at he
      simp only at he
      have hround : ∀ e ∈ (pollRound w baseurl round st).2, e.isPost = false := by
        intro e he
        obtain ⟨key, -, rfl⟩ := visitAll_events _ _ _ _ _ e he
        rfl
      split at he
      · exact hround e he
      · simp only [List.mem_append, List.mem_cons] at he
        rcases he with he | rfl | he
        · exact hround e he
        · rfl
        · exact ih _ _ e he

theorem main_of_form_none (w : World) (fuel : Nat) (f : Flags) (h : buildForm f = none) :
    (main w fuel f).exit = .code 1 ∧ (main w fuel f).trace = [] := by
  simp [main, h]

/-- A run that passes the checks of the flags starts with the trigger POST and
makes no other POST. -/
theorem main_of_form_some (w : World) (fuel : Nat) (f : Flags) (data : Values)
    (h : buildForm f = some data) :
    ∃ rest, (main w fuel f).trace = Event.post f.url data :: rest ∧
      ∀ e ∈ rest, e.isPost = false := by
  unfold main
  rw [h]
  simp only
  split
  · exact ⟨[], rfl, by simp⟩
  · split
    · exact ⟨[], rfl, by simp⟩
    · split
      · exact ⟨[], rfl, by simp⟩
      · split
        · exact ⟨[], rfl, by simp⟩
        · split
          · exact ⟨_, rfl, discover_not_post _ _ _ _ _⟩
          · refine ⟨_, rfl, ?_⟩
            intro e he
            simp only [List.mem_append] at he
            rcases he with he | he
            · exact discover_not_post _ _ _ _ _ e he
            · exact pollLoop_not_post _ _ _ _ _ e he

theorem buildForm_tag (f : Flags) (htag : f.tag = true) (href : f.ref ≠ "")
    (htoken : f.token ≠ "") (hurl : f.url ≠ "") :
    (buildForm f).isSome = true ↔ versionMatched f.version = true := by
  unfold buildForm
  simp only [href, htoken, hurl, if_false, htag, if_true]
  by_cases hv : versionMatched f.version = true
  · have hlen : ¬ f.version.length < 1 := by
      intro hlt
      have h0 : f.version.toList = [] := by
        have : f.version.toList.length = 0 := by
          have hl : f.version.length = f.version.toList.length := rfl
          omega
        exact List.length_eq_zero.mp this
      unfold versionMatched at hv
      rw [h0] at hv
      simp [versionItems, digits, matchHere] at hv
    simp [hv, hlen]
  · simp only [hv]
    split <;> simp

/-- C1. With `-tag=true` and non-empty ref, token and url, the trigger POST is
reached if and only if the version is four non-empty runs of ASCII digits
separated by single dots; for every other version the process exits with code
1 and the trace is empty: no HTTP request has been made. -/
theorem C1_version_gate (w : World) (fuel : Nat) (f : Flags) (htag : f.tag = true)
    (href : f.ref ≠ "") (htoken : f.token ≠ "") (hurl : f.url ≠ "") :
    ((∃ u data, Event.post u data ∈ (main w fuel f).trace) ↔ FourDotted f.version) ∧
      (¬ FourDotted f.version →
        (main w fuel f).exit = .code 1 ∧ (main w fuel f).trace = []) := by
  have hiff := buildForm_tag f htag href htoken hurl
  rw [versionMatched_iff] at hiff
  constructor
  · constructor
    · rintro ⟨u, data, hmem⟩
      by_contra hnot
      have hnone : buildForm f = none := by
        cases hb : buildForm f with
        | none => rfl
        | some d => exact absurd (hiff.mp (by simp [hb])) hnot
      rw [(main_of_form_none w fuel f hnone).2] at hmem
      simp at hmem
    · intro hfour
      obtain ⟨data, hd⟩ := Option.isSome_iff_exists.mp (hiff.mpr hfour)
      obtain ⟨rest, hrest, -⟩ := main_of_form_some w fuel f data hd
      exact ⟨f.url, data, by rw [hrest]; simp⟩
  · intro hnot
    have hnone : buildForm f = none := by
      cases hb : buildForm f with
      | none => rfl
      | some d => exact absurd (hiff.mp (by simp [hb])) hnot
    exact main_of_form_none w fuel f hnone

/-- C2. In a run that passes the checks of the flags exactly one POST is made,
and its form has exactly the fields `ref` and `token`, each once, without
`-tag`, and `ref`, `token` and `variables[FULL_VERSION]` with `-tag`. -/
theorem C2_form_fields (w : World) (fuel : Nat) (f : Flags) (data : Values)
    (h : buildForm f = some data) :
    (main w fuel f).trace.filter Event.isPost = [Event.post f.url data] ∧
      (f.tag = false → data = [("ref", [f.ref]), ("token", [f.token])]) ∧
      (f.tag = true → data = [("ref", [f.ref]), ("token", [f.token]),
        ("variables[FULL_VERSION]", [f.version])]) := by
  obtain ⟨rest, hrest, hno⟩ := main_of_form_some w fuel f data h
  refine ⟨?_, ?_, ?_⟩
  · rw [hrest]
    simp only [List.filter_cons, Event.isPost, if_true]
    congr 1
    exact List.filter_eq_nil_iff.mpr (fun e he => by simp [hno e he])
  · intro htag
    unfold buildForm at h
    simp only [htag] at h
    split at h
    · exact Option.noConfusion h
    · split at h
      · exact Option.noConfusion h
      · split at h
        · exact Option.noConfusion h
        · simp [Values.Add] at h
          exact h.symm
  · intro htag
    unfold buildForm at h
    simp only [htag] at h
    split at h
    · exact Option.noConfusion h
    · split at h
      · exact Option.noConfusion h
      · split at h
        · exact Option.noConfusion h
        · simp only [if_true] at h
          split at h
          · exact Option.noConfusion h
          · split at h
            · exact Option.noConfusion h
            · simp [Values.Add] at h
              exact h.symm

/-! ## The base URL -/

theorem matchHere_lit_some (e : Bool) (a : Char) (is : List Item) (s : List Char) (n : Nat)
    (h : matchHere e (lit a :: is) s = some n) :
    ∃ cs k, s = a :: cs ∧ matchHere e is cs = some k ∧ n = k + 1 := by
  cases s with
  | nil => rw [matchHere_cons_nil] at h; exact Option.noConfusion h
  | cons c cs =>
      obtain ⟨rfl, k, hk, rfl⟩ := (matchHere_lit_cons e a is c cs n).mp h
      exact ⟨cs, k, rfl, hk, rfl⟩

theorem slash_not_digit : '/'.isDigit = false := by decide

/-- The part of the pattern after `.+` on an input that starts with
`projects/<digits>/`. -/
theorem matchHere_tail_eval (ds rest : List Char) (hds : IsDigitRun ds) :
    matchHere false [lit 'p', lit 'r', lit 'o', lit 'j', lit 'e', lit 'c', lit 't', lit 's',
      lit '/', digits, lit '/'] ("projects/".toList ++ ds ++ '/' :: rest) =
      some (10 + ds.length) := by
  have hs : "projects/".toList ++ ds ++ '/' :: rest =
      'p' :: 'r' :: 'o' :: 'j' :: 'e' :: 'c' :: 't' :: 's' :: '/' :: (ds ++ '/' :: rest) := rfl
  rw [hs]
  simp only [matchHere_lit_cons_self]
  rw [matchHere_digits_sep _ _ slash_not_digit _ _ _ hds]
  simp [matchHere]
  omega

theorem matchHere_tail_some (s : List Char) (n : Nat)
    (h : matchHere false [lit 'p', lit 'r', lit 'o', lit 'j', lit 'e', lit 'c', lit 't', lit 's',
      lit '/', digits, lit '/'] s = some n) :
    ∃ ds rest, IsDigitRun ds ∧ s = "projects/".toList ++ ds ++ '/' :: rest ∧
      n = 10 + ds.length := by
  obtain ⟨s1, k1, rfl, h1, rfl⟩ := matchHere_lit_some _ _ _ _ _ h
  obtain ⟨s2, k2, rfl, h2, rfl⟩ := matchHere_lit_some _ _ _ _ _ h1
  obtain ⟨s3, k3, rfl, h3, rfl⟩ := matchHere_lit_some _ _ _ _ _ h2
  obtain ⟨s4, k4, rfl, h4, rfl⟩ := matchHere_lit_some _ _ _ _ _ h3
  obtain ⟨s5, k5, rfl, h5, rfl⟩ := matchHere_lit_some _ _ _ _ _ h4
  obtain ⟨s6, k6, rfl, h6, rfl⟩ := matchHere_lit_some _ _ _ _ _ h5
  obtain ⟨s7, k7, rfl, h7, rfl⟩ := matchHere_lit_some _ _ _ _ _ h6
  obtain ⟨s8, k8, rfl, h8, rfl⟩ := matchHere_lit_some _ _ _ _ _ h7
  obtain ⟨s9, k9, rfl, h9, rfl⟩ := matchHere_lit_some _ _ _ _ _ h8
  obtain ⟨ds, rest, k, hds, rfl, hk, rfl⟩ := matchHere_digits_lit_some _ _ _ _ _ h9
  simp [matchHere] at hk
  subst hk
  exact ⟨ds, rest, hds, rfl, by omega⟩

/-- No character of `projects/<digits>/` after the first is a `p`. -/
theorem p_not_in_tail (ds : List Char) (hds : IsDigitRun ds) :
    'p' ∉ "rojects/".toList ++ ds ++ ['/'] := by
  intro h
  simp only [List.mem_append, List.mem_singleton] at h
  rcases h with (h | h) | h
  · revert h; decide
  · have := hds.2 'p' h
    revert this; decide
  · revert h; decide

/-- What a match of the pattern of line 96 looks like, and that `.+` took the
longest run it could. -/
theorem matchHere_base_some (s : List Char) (n : Nat)
    (h : matchHere false baseItems s = some n) :
    ∃ mid ds rest, mid ≠ [] ∧ (∀ c ∈ mid, dot c = true) ∧ IsDigitRun ds ∧
      s = "http".toList ++ (mid ++ ("projects/".toList ++ ds ++ '/' :: rest)) ∧
      n = 4 + mid.length + (10 + ds.length) ∧
      ∀ j', mid.length < j' →
        j' ≤ (mid ++ ("projects/".toList ++ ds ++ '/' :: rest)).length →
        (∀ c ∈ (mid ++ ("projects/".toList ++ ds ++ '/' :: rest)).take j', dot c = true) →
        matchHere false [lit 'p', lit 'r', lit 'o', lit 'j', lit 'e', lit 'c', lit 't',
          lit 's', lit '/', digits, lit '/']
          ((mid ++ ("projects/".toList ++ ds ++ '/' :: rest)).drop j') = none := by
  unfold baseItems at h
  obtain ⟨s1, k1, rfl, h1, rfl⟩ := matchHere_lit_some _ _ _ _ _ h
  obtain ⟨s2, k2, rfl, h2, rfl⟩ := matchHere_lit_some _ _ _ _ _ h1
  obtain ⟨s3, k3, rfl, h3, rfl⟩ := matchHere_lit_some _ _ _ _ _ h2
  obtain ⟨s4, k4, rfl, h4, rfl⟩ := matchHere_lit_some _ _ _ _ _ h3
  obtain ⟨j, k, rfl, hj1, hj2, hj3, hj4, hj5⟩ := matchHere_plus_some _ _ _ _ _ h4
  obtain ⟨ds, rest, hds, hdrop, rfl⟩ := matchHere_tail_some _ _ hj4
  have hs4 : s4 = s4.take j ++ ("projects/".toList ++ ds ++ '/' :: rest) := by
    rw [← hdrop, List.take_append_drop]
  have hlen : (s4.take j).length = j := by
    rw [List.length_take]; omega
  refine ⟨s4.take j, ds, rest, ?_, hj3, hds, ?_, ?_, ?_⟩
  · intro h0
    rw [h0] at hlen
    simp at hlen
    omega
  · rw [← hs4]; rfl
  · rw [hlen]; omega
  · rw [← hs4, hlen]
    exact hj5

/-- Every URL with a prefix of the shape is matched. -/
theorem matchHere_base_complete (mid ds rest : List Char) (hmid : mid ≠ [])
    (hdot : ∀ c ∈ mid, dot c = true) (hds : IsDigitRun ds) :
    (matchHere false baseItems
      ("http".toList ++ (mid ++ ("projects/".toList ++ ds ++ '/' :: rest)))).isSome = true := by
  have hs : "http".toList ++ (mid ++ ("projects/".toList ++ ds ++ '/' :: rest)) =
      'h' :: 't' :: 't' :: 'p' :: (mid ++ ("projects/".toList ++ ds ++ '/' :: rest)) := rfl
  rw [hs]
  unfold baseItems
  simp only [matchHere_lit_cons_self]
  have : (matchHere false (Item.plus dot :: [lit 'p', lit 'r', lit 'o', lit 'j', lit 'e', lit 'c',
      lit 't', lit 's', lit '/', digits, lit '/'])
      (mid ++ ("projects/".toList ++ ds ++ '/' :: rest))).isSome = true := by
    rw [matchHere_plus_isSome]
    refine ⟨mid.length, ?_, by simp, ?_, ?_⟩
    · cases mid with
      | nil => exact absurd rfl hmid
      | cons _ _ => simp
    · simpa using hdot
    · rw [List.drop_left, matchHere_tail_eval _ _ hds]
      rfl
  obtain ⟨k, hk⟩ := Option.isSome_iff_exists.mp this
  rw [hk]
  rfl

theorem dot_iff (c : Char) : dot c = true ↔ c ≠ '\n' := by
  simp [dot]

theorem findBase_of_some (url : String) (n : Nat)
    (h : matchHere false baseItems url.toList = some n) :
    (findBase url).toList = url.toList.take n := by
  unfold findBase
  rw [h]
  rfl

theorem findBase_of_none (url : String) (h : matchHere false baseItems url.toList = none) :
    findBase url = "" := by
  unfold findBase
  rw [h]

/-- The derived base is the longest prefix of the shape, when there is one. -/
theorem findBase_longest (url : String) (p : List Char) (hp : BaseShape p)
    (hpre : p <+: url.toList) :
    BaseShape (findBase url).toList ∧ (findBase url).toList <+: url.toList ∧
      ∀ q, BaseShape q → q <+: url.toList → q.length ≤ (findBase url).toList.length := by
  obtain ⟨mid0, ds0, hmid0, hdot0, hds0, rfl⟩ := hp
  obtain ⟨rest0, hrest0⟩ := hpre
  have hsome : (matchHere false baseItems url.toList).isSome = true := by
    rw [← hrest0]
    have := matchHere_base_complete mid0 ds0 rest0 hmid0
      (fun c hc => (dot_iff c).mpr (hdot0 c hc)) hds0
    simpa [List.append_assoc] using this
  obtain ⟨n, hn⟩ := Option.isSome_iff_exists.mp hsome
  obtain ⟨mid, ds, rest, hmid, hdot, hds, hs, rfl, hmax⟩ := matchHere_base_some _ _ hn
  have hfb : (findBase url).toList =
      "http".toList ++ mid ++ "projects/".toList ++ ds ++ ['/'] := by
    rw [findBase_of_some url _ hn, hs]
    have : "http".toList ++ (mid ++ ("projects/".toList ++ ds ++ '/' :: rest)) =
        ("http".toList ++ mid ++ "projects/".toList ++ ds ++ ['/']) ++ rest := by
      simp [List.append_assoc]
    rw [this]
    apply List.take_left'
    simp
    omega
  refine ⟨⟨mid, ds, hmid, fun c hc => (dot_iff c).mp (hdot c hc), hds, hfb⟩, ?_, ?_⟩
  · rw [hfb, hs]
    exact ⟨rest, by simp [List.append_assoc]⟩
  · rintro q ⟨mid', ds', hmid', hdot', hds', rfl⟩ ⟨rest', hq⟩
    rw [hfb]
    have hlens : ∀ (a b : List Char),
        ("http".toList ++ a ++ "projects/".toList ++ b ++ ['/']).length =
          4 + a.length + (10 + b.length) := by
      intro a b
      simp
      omega
    rw [hlens, hlens]
    -- the two ways to read the input after "http"
    have heq : mid ++ ("projects/".toList ++ ds ++ '/' :: rest) =
        mid' ++ ("projects/".toList ++ ds' ++ '/' :: rest') := by
      have h1 : "http".toList ++ (mid ++ ("projects/".toList ++ ds ++ '/' :: rest)) =
          "http".toList ++ (mid' ++ ("projects/".toList ++ ds' ++ '/' :: rest')) := by
        rw [← hs, ← hq]
        simp [List.append_assoc]
      exact List.append_cancel_left h1
    rcases Nat.lt_trichotomy mid'.length mid.length with hlt | heqlen | hgt
    · -- the shorter middle: its `projects/<digits>/` ends before the `p` that was matched
      by_contra hcon
      have hlt2 : mid.length < mid'.length + (10 + ds'.length) := by omega
      have hp1 : (mid ++ ("projects/".toList ++ ds ++ '/' :: rest))[mid.length]? = some 'p' := by
        rw [List.getElem?_append_right (le_refl _)]
        simp
      rw [heq] at hp1
      rw [List.getElem?_append_right (by omega)] at hp1
      obtain ⟨o, ho⟩ : ∃ o, mid.length - mid'.length = o + 1 := ⟨mid.length - mid'.length - 1, by omega⟩
      rw [ho] at hp1
      have hx : "projects/".toList ++ ds' ++ '/' :: rest' =
          'p' :: (("rojects/".toList ++ ds' ++ ['/']) ++ rest') := by
        simp [List.append_assoc]
      rw [hx, List.getElem?_cons_succ,
        List.getElem?_append_left (by simp; omega)] at hp1
      exact p_not_in_tail ds' hds' (List.getElem?_mem hp1)
    · have hd : List.drop mid.length (mid ++ ("projects/".toList ++ ds ++ '/' :: rest)) =
          List.drop mid'.length (mid' ++ ("projects/".toList ++ ds' ++ '/' :: rest')) := by
        rw [heq, heqlen]
      rw [List.drop_left, List.drop_left] at hd
      have e1 := matchHere_tail_eval ds rest hds
      have e2 := matchHere_tail_eval ds' rest' hds'
      rw [hd, e2] at e1
      simp at e1
      omega
    · exfalso
      have hnone := hmax mid'.length hgt (by rw [heq]; simp) (by
        rw [heq, List.take_left]
        exact fun c hc => (dot_iff c).mpr (hdot' c hc))
      rw [heq, List.drop_left, matchHere_tail_eval ds' rest' hds'] at hnone
      exact Option.noConfusion hnone

theorem claimed_of_baseShape (p : List Char) (h : BaseShape p) : ClaimedBase p := by
  obtain ⟨mid, ds, hmid, -, hds, hp⟩ := h
  exact ⟨mid, ds, hmid, hds, hp⟩

/-- In a URL without control characters the characters between "http" and
"projects/" are no line feeds. -/
theorem baseShape_of_claimed (url : String) (hctl : hasCTL url = false) (p : List Char)
    (h : ClaimedBase p) (hpre : p <+: url.toList) : BaseShape p := by
  obtain ⟨mid, ds, hmid, hds, hp⟩ := h
  refine ⟨mid, ds, hmid, ?_, hds, hp⟩
  intro c hc hnl
  subst hnl
  have hmem : '\n' ∈ url.toList := by
    apply hpre.subset
    rw [hp]
    simp [hc]
  unfold hasCTL at hctl
  rw [List.any_eq_false] at hctl
  exact hctl '\n' hmem (by decide)

theorem findBase_of_lacks (url : String) (h : LacksProject url.toList) : findBase url = "" := by
  cases hm : matchHere false baseItems url.toList with
  | none => exact findBase_of_none url hm
  | some n =>
      exfalso
      obtain ⟨mid, ds, rest, -, -, hds, hs, -, -⟩ := matchHere_base_some _ _ hm
      exact h ⟨"http".toList ++ mid, ds, rest, hds, by rw [hs]; simp [List.append_assoc]⟩

theorem main_of_base_empty (w : World) (fuel : Nat) (f : Flags) (hwait : f.wait = true)
    (htrig : w.trigger.isSome = true) (hbase : findBase f.url = "") :
    (main w fuel f).exit = .code 1 ∧ ∀ e ∈ (main w fuel f).trace, e.isPost = true := by
  obtain ⟨status, hst⟩ := Option.isSome_iff_exists.mp htrig
  unfold main
  cases hb : buildForm f with
  | none => simp
  | some data =>
      simp only [hst, hwait, hbase, Bool.not_true, Bool.false_eq_true, if_false]
      split <;> simp [Event.isPost]

/-! ## The map `ids` -/

theorem lookup_cons_self (k : String) (v : context) (ids : Ids) :
    List.lookup k ((k, v) :: ids) = some v := by
  simp [List.lookup]

theorem lookup_cons_ne (k k' : String) (v : context) (ids : Ids) (h : k ≠ k') :
    List.lookup k ((k', v) :: ids) = List.lookup k ids := by
  have : (k == k') = false := by simpa using h
  simp [List.lookup, this]

theorem lookup_mapSet_self (ids : Ids) (key : String) (c : context) :
    (mapSet ids key c).lookup key = some c := by
  induction ids with
  | nil => simp [mapSet, List.lookup]
  | cons e ids ih =>
      obtain ⟨k, v⟩ := e
      by_cases h : k = key
      · subst h
        simp [mapSet, lookup_cons_self]
      · simp only [mapSet, h, if_false]
        rw [lookup_cons_ne _ _ _ _ (Ne.symm h)]
        exact ih

theorem lookup_mapSet_ne (ids : Ids) (key key' : String) (c : context) (h : key' ≠ key) :
    (mapSet ids key c).lookup key' = ids.lookup key' := by
  induction ids with
  | nil =>
      simp only [mapSet]
      rw [lookup_cons_ne _ _ _ _ h]
  | cons e ids ih =>
      obtain ⟨k, v⟩ := e
      by_cases hk : k = key
      · subst hk
        simp only [mapSet, if_true]
        rw [lookup_cons_ne _ _ _ _ h, lookup_cons_ne _ _ _ _ h]
      · simp only [mapSet, hk, if_false]
        by_cases hk' : key' = k
        · subst hk'
          rw [lookup_cons_self, lookup_cons_self]
        · rw [lookup_cons_ne _ _ _ _ hk', lookup_cons_ne _ _ _ _ hk']
          exact ih

theorem mem_of_lookup (ids : Ids) (key : String) (c : context)
    (h : ids.lookup key = some c) : (key, c) ∈ ids := by
  induction ids with
  | nil => simp [List.lookup] at h
  | cons e ids ih =>
      obtain ⟨k, v⟩ := e
      by_cases hk : key = k
      · subst hk
        rw [lookup_cons_self] at h
        simp at h
        simp [h]
      · rw [lookup_cons_ne _ _ _ _ hk] at h
        exact List.mem_cons_of_mem _ (ih h)

theorem lookup_isSome_of_mem (ids : Ids) (key : String)
    (h : key ∈ ids.map Prod.fst) : ∃ c, ids.lookup key = some c := by
  induction ids with
  | nil => simp at h
  | cons e ids ih =>
      obtain ⟨k, v⟩ := e
      by_cases hk : key = k
      · subst hk
        exact ⟨v, lookup_cons_self _ _ _⟩
      · rw [lookup_cons_ne _ _ _ _ hk]
        simp only [List.map_cons, List.mem_cons] at h
        rcases h with h | h
        · exact absurd h hk
        · exact ih h

theorem kept_refl (a : String × context) : Kept a a := ⟨rfl, rfl, id⟩

theorem kept_trans {a b c : String × context} (h1 : Kept a b) (h2 : Kept b c) : Kept a c :=
  ⟨h1.1.trans h2.1, h1.2.1.trans h2.2.1, fun h => h2.2.2 (h1.2.2 h)⟩

theorem forall₂_kept_refl (ids : Ids) : List.Forall₂ Kept ids ids := by
  induction ids with
  | nil => exact List.Forall₂.nil
  | cons e ids ih => exact List.Forall₂.cons (kept_refl e) ih

theorem forall₂_kept_trans {a b c : Ids} (h1 : List.Forall₂ Kept a b)
    (h2 : List.Forall₂ Kept b c) : List.Forall₂ Kept a c := by
  induction h1 generalizing c with
  | nil => cases h2; exact List.Forall₂.nil
  | cons hab _ ih =>
      cases h2 with
      | cons hbc htl => exact List.Forall₂.cons (kept_trans hab hbc) (ih htl)

/-- Marking a tracked record done keeps every record. -/
theorem forall₂_kept_mapSet (ids : Ids) (key : String) (val : context)
    (h : ids.lookup key = some val) :
    List.Forall₂ Kept ids (mapSet ids key { done := true, start := val.start }) := by
  induction ids with
  | nil => simp [List.lookup] at h
  | cons e ids ih =>
      obtain ⟨k, v⟩ := e
      by_cases hk : k = key
      · subst hk
        rw [lookup_cons_self] at h
        simp at h
        subst h
        simp only [mapSet, if_true]
        exact List.Forall₂.cons ⟨rfl, rfl, fun _ => rfl⟩ (forall₂_kept_refl ids)
      · rw [lookup_cons_ne _ _ _ _ (Ne.symm hk)] at h
        simp only [mapSet, hk, if_false]
        exact List.Forall₂.cons (kept_refl _) (ih h)

theorem forall₂_kept_keys {a b : Ids} (h : List.Forall₂ Kept a b) :
    a.map Prod.fst = b.map Prod.fst := by
  induction h with
  | nil => rfl
  | cons hab _ ih => simp [hab.1, ih]

theorem forall₂_kept_lookup {a b : Ids} (h : List.Forall₂ Kept a b) (key : String)
    (c : context) (hc : a.lookup key = some c) :
    ∃ c', b.lookup key = some c' ∧ c'.start = c.start ∧ (c.done = true → c'.done = true) := by
  induction h with
  | nil => simp [List.lookup] at hc
  | @cons x y xs ys hxy _ ih =>
      obtain ⟨k, v⟩ := x
      obtain ⟨k', v'⟩ := y
      obtain ⟨hk, hs, hd⟩ := hxy
      simp only at hk hs hd
      subst hk
      by_cases hkey : key = k
      · subst hkey
        rw [lookup_cons_self] at hc
        simp at hc
        subst hc
        exact ⟨v', lookup_cons_self _ _ _, hs.symm, hd⟩
      · rw [lookup_cons_ne _ _ _ _ hkey] at hc
        rw [lookup_cons_ne _ _ _ _ hkey]
        exact ih hc

/-! ## One visit, one round -/

theorem visit_kept (w : World) (baseurl : String) (round : Nat) (key : String) (st : Poll) :
    List.Forall₂ Kept st.ids (visit w baseurl round key st).1.ids := by
  unfold visit
  split
  · exact forall₂_kept_refl _
  · rename_i val hval
    split
    · exact forall₂_kept_refl _
    · split
      · exact forall₂_kept_refl _
      · exact forall₂_kept_refl _
      · exact forall₂_kept_refl _
      · simp only
        split
        · split
          · exact forall₂_kept_mapSet _ _ _ hval
          · exact forall₂_kept_refl _
        · exact forall₂_kept_refl _

theorem visitAll_kept (w : World) (baseurl : String) (round : Nat) (keys : List String)
    (st : Poll) : List.Forall₂ Kept st.ids (visitAll w baseurl round keys st).1.ids := by
  induction keys generalizing st with
  | nil => exact forall₂_kept_refl _
  | cons k ks ih =>
      simp only [visitAll]
      exact forall₂_kept_trans (visit_kept w baseurl round k st) (ih _)

theorem pollLoop_kept (w : World) (baseurl : String) (fuel round : Nat) (st : Poll) :
    List.Forall₂ Kept st.ids (pollLoop w baseurl fuel round st).2.1.ids := by
  induction fuel generalizing round st with
  | zero => exact forall₂_kept_refl _
  | succ fuel ih =>
      rw [pollLoop]
      simp only
      split
      · exact visitAll_kept _ _ _ _ _
      · exact forall₂_kept_trans (visitAll_kept _ _ _ _ _) (ih _ _)

/-- A visit to a record that is done, or to a key that is not tracked, does
nothing. -/
theorem visit_of_done (w : World) (baseurl : String) (round : Nat) (key : String) (st : Poll)
    (h : ∀ c, st.ids.lookup key = some c → c.done = true) :
    visit w baseurl round key st = (st, []) := by
  unfold visit
  split
  · rfl
  · rename_i val hval
    rw [if_pos (h val hval)]

theorem allDone_lookup (ids : Ids) (h : allDone ids = true) (key : String) (c : context)
    (hc : ids.lookup key = some c) : c.done = true := by
  unfold allDone at h
  rw [List.all_eq_true] at h
  exact h _ (mem_of_lookup ids key c hc)

theorem visitAll_of_allDone (w : World) (baseurl : String) (round : Nat) (keys : List String)
    (st : Poll) (h : allDone st.ids = true) :
    visitAll w baseurl round keys st = (st, []) := by
  induction keys with
  | nil => rfl
  | cons k ks ih =>
      simp only [visitAll]
      rw [visit_of_done w baseurl round k st (allDone_lookup st.ids h k)]
      simp [ih]

theorem visitAll_append (w : World) (baseurl : String) (round : Nat) (pre post : List String)
    (st : Poll) :
    visitAll w baseurl round (pre ++ post) st =
      ((visitAll w baseurl round post (visitAll w baseurl round pre st).1).1,
        (visitAll w baseurl round pre st).2 ++
          (visitAll w baseurl round post (visitAll w baseurl round pre st).1).2) := by
  induction pre generalizing st with
  | nil => simp [visitAll]
  | cons k ks ih =>
      simp only [List.cons_append, visitAll, List.append_eq, ih, List.append_assoc]

/-- A detail request is only made for a record that is not done. -/
theorem visit_get_not_done (w : World) (baseurl : String) (round : Nat) (key : String)
    (st : Poll) (e : Event) (he : e ∈ (visit w baseurl round key st).2) :
    e = .getBuild baseurl key ∧ ∃ c, st.ids.lookup key = some c ∧ c.done = false := by
  by_cases h : ∀ c, st.ids.lookup key = some c → c.done = true
  · rw [visit_of_done w baseurl round key st h] at he
    simp at he
  · push_neg at h
    obtain ⟨c, hc, hd⟩ := h
    refine ⟨?_, c, hc, by simpa using hd⟩
    rcases visit_events w baseurl round key st with h0 | h0
    · rw [h0] at he; simp at he
    · rw [h0] at he; simpa using he

theorem visitAll_get_not_done (w : World) (baseurl : String) (round : Nat) (keys : List String)
    (st : Poll) (e : Event) (he : e ∈ (visitAll w baseurl round keys st).2) :
    ∃ key c, e = .getBuild baseurl key ∧ st.ids.lookup key = some c ∧ c.done = false := by
  induction keys generalizing st with
  | nil => simp [visitAll] at he
  | cons k ks ih =>
      simp only [visitAll, List.mem_append] at he
      rcases he with he | he
      · obtain ⟨h1, c, hc, hd⟩ := visit_get_not_done _ _ _ _ _ e he
        exact ⟨k, c, h1, hc, hd⟩
      · obtain ⟨key, c', h1, hc', hd'⟩ := ih _ he
        -- the record was not done before the visit of `k` either
        cases hl : st.ids.lookup key with
        | none =>
            exfalso
            have hkeys := forall₂_kept_keys (visit_kept w baseurl round k st)
            have hmem : key ∈ (visit w baseurl round k st).1.ids.map Prod.fst := by
              have := mem_of_lookup _ _ _ hc'
              exact List.mem_map.mpr ⟨_, this, rfl⟩
            rw [← hkeys] at hmem
            obtain ⟨c, hc⟩ := lookup_isSome_of_mem _ _ hmem
            rw [hl] at hc
            exact Option.noConfusion hc
        | some c =>
            obtain ⟨c'', hc'', -, hmono⟩ :=
              forall₂_kept_lookup (visit_kept w baseurl round k st) key c hl
            rw [hc'] at hc''
            simp at hc''
            subst hc''
            refine ⟨key, c, h1, hl, ?_⟩
            cases hdone : c.done with
            | false => rfl
            | true =>
                rw [hmono hdone] at hd'
                exact Bool.noConfusion hd'

theorem pollLoop_get_not_done (w : World) (baseurl : String) (fuel round : Nat) (st : Poll)
    (b key : String) (he : Event.getBuild b key ∈ (pollLoop w baseurl fuel round st).2.2) :
    ∃ c, st.ids.lookup key = some c ∧ c.done = false := by
  induction fuel generalizing round st with
  | zero => simp [pollLoop] at he
  | succ fuel ih =>
      rw [pollLoop] at he
      simp only at he
      have hround : Event.getBuild b key ∈ (pollRound w baseurl round st).2 →
          ∃ c, st.ids.lookup key = some c ∧ c.done = false := by
        intro h
        obtain ⟨key', c, h1, hc, hd⟩ := visitAll_get_not_done _ _ _ _ _ _ h
        simp at h1
        obtain ⟨-, rfl⟩ := h1
        exact ⟨c, hc, hd⟩
      split at he
      · exact hround he
      · simp only [List.mem_append, List.mem_cons] at he
        rcases he with he | he | he
        · exact hround he
        · exact Event.noConfusion he
        · obtain ⟨c', hc', hd'⟩ := ih _ _ he
          have hk := visitAll_kept w baseurl round
            (permute (w.picks round) (st.ids.map Prod.fst)) st
          cases hl : st.ids.lookup key with
          | none =>
              exfalso
              have hkeys := forall₂_kept_keys hk
              have hmem : key ∈ (pollRound w baseurl round st).1.ids.map Prod.fst :=
                List.mem_map.mpr ⟨_, mem_of_lookup _ _ _ hc', rfl⟩
              unfold pollRound at hmem
              rw [← hkeys] at hmem
              obtain ⟨c, hc⟩ := lookup_isSome_of_mem _ _ hmem
              rw [hl] at hc
              exact Option.noConfusion hc
          | some c =>
              obtain ⟨c'', hc'', -, hmono⟩ := forall₂_kept_lookup hk key c hl
              unfold pollRound at hc'
              rw [hc'] at hc''
              simp at hc''
              subst hc''
              refine ⟨c, rfl, ?_⟩
              cases hdone : c.done with
              | false => rfl
              | true =>
                  rw [hmono hdone] at hd'
                  exact Bool.noConfusion hd'

/-! ## The order of a round -/

theorem permute_perm (picks : List Nat) (xs : List String) : (permute picks xs).Perm xs := by
  induction xs generalizing picks with
  | nil => simp [permute]
  | cons x xs ih =>
      simp only [permute]
      refine (List.perm_insertIdx x _ ?_).trans (List.Perm.cons x (ih _))
      exact Nat.le_of_lt_succ (Nat.mod_lt _ (Nat.succ_pos _))

theorem visit_lookup_ne (w : World) (baseurl : String) (round : Nat) (k key : String)
    (st : Poll) (h : key ≠ k) :
    (visit w baseurl round k st).1.ids.lookup key = st.ids.lookup key := by
  unfold visit
  split
  · rfl
  · split
    · rfl
    · split
      · rfl
      · rfl
      · rfl
      · simp only
        split
        · split
          · exact lookup_mapSet_ne _ _ _ _ h
          · rfl
        · rfl

theorem visitAll_lookup_not_mem (w : World) (baseurl : String) (round : Nat)
    (keys : List String) (key : String) (st : Poll) (h : key ∉ keys) :
    (visitAll w baseurl round keys st).1.ids.lookup key = st.ids.lookup key := by
  induction keys generalizing st with
  | nil => rfl
  | cons k ks ih =>
      simp only [List.mem_cons, not_or] at h
      simp only [visitAll]
      rw [ih _ h.2, visit_lookup_ne _ _ _ _ _ _ h.1]

theorem isTerminal_iff (s : JVal) :
    isTerminal s = true ↔ s = .str "success" ∨ s = .str "failed" ∨ s = .str "canceled" := by
  simp [isTerminal, or_assoc]

/-- The visit of a record that is not done, when the reply is an object with
`ref`, `name` and `status`. -/
theorem visit_object (w : World) (baseurl : String) (round : Nat) (key : String) (st : Poll)
    (c : context) (hc : st.ids.lookup key = some c) (hnd : c.done = false)
    (o : Obj) (r n s : JVal) (hrep : w.detail round key = .body (.object o))
    (hr : o.lookup "ref" = some r) (hn : o.lookup "name" = some n)
    (hs : o.lookup "status" = some s) :
    (visit w baseurl round key st).1.ids.lookup key =
      some { done := isTerminal s, start := c.start } := by
  unfold visit
  rw [hc]
  simp only [hnd, Bool.false_eq_true, if_false, hrep, List.lookup_append, hr, hn, hs,
    Option.or_some]
  by_cases ht : isTerminal s = true
  · simp only [ht, if_true]
    exact lookup_mapSet_self _ _ _
  · have hf : isTerminal s = false := by simpa using ht
    simp only [hf, Bool.false_eq_true, if_false]
    rw [hc, ← hnd]

/-- The visit of a record that is not done, when the request or the parsing
of the reply fails, or the reply is `null`. -/
theorem visit_error (w : World) (baseurl : String) (round : Nat) (key : String) (st : Poll)
    (hrep : w.detail round key = .requestError ∨ w.detail round key = .body .invalid ∨
      w.detail round key = .body .null) :
    (visit w baseurl round key st).1.ids = st.ids := by
  unfold visit
  split
  · rfl
  · split
    · rfl
    · rcases hrep with h | h | h <;> rw [h]

/-- In a round the record of a key is changed by the visit of that key only. -/
theorem pollRound_lookup (w : World) (baseurl : String) (round : Nat) (st : Poll)
    (key : String) (c : context) (hkeys : (st.ids.map Prod.fst).Nodup)
    (hc : st.ids.lookup key = some c) :
    ∃ st1 : Poll, st1.ids.lookup key = some c ∧
      (pollRound w baseurl round st).1.ids.lookup key =
        (visit w baseurl round key st1).1.ids.lookup key := by
  have hperm := permute_perm (w.picks round) (st.ids.map Prod.fst)
  have hmem : key ∈ permute (w.picks round) (st.ids.map Prod.fst) :=
    hperm.symm.subset (List.mem_map.mpr ⟨_, mem_of_lookup _ _ _ hc, rfl⟩)
  have hnd : (permute (w.picks round) (st.ids.map Prod.fst)).Nodup := hperm.symm.nodup_iff.mp hkeys
  obtain ⟨pre, post, hsplit⟩ := List.append_of_mem hmem
  rw [hsplit] at hnd
  have hpre : key ∉ pre := by
    intro h
    have := List.nodup_append.mp hnd
    exact this.2.2 h (by simp) 
  have hpost : key ∉ post := by
    have := (List.nodup_append.mp hnd).2.1
    exact (List.nodup_cons.mp this).1
  refine ⟨(visitAll w baseurl round pre st).1, ?_, ?_⟩
  · rw [visitAll_lookup_not_mem _ _ _ _ _ _ hpre, hc]
  · unfold pollRound
    rw [hsplit, visitAll_append]
    simp only [visitAll]
    rw [visitAll_lookup_not_mem _ _ _ _ _ _ hpost]

/-! ## The attempt loop -/

/-- The attempt loop makes at most as many list requests as it has attempts,
and at least one when it has an attempt. -/
theorem attempts_requests (w : World) (baseurl scope : String) (n i : Nat) (m : List Obj) :
    requests (attempts w baseurl scope n i m).2 ≤ n ∧
      (1 ≤ n → 1 ≤ requests (attempts w baseurl scope n i m).2) := by
  induction n generalizing i m with
  | zero => simp [attempts, requests]
  | succ n ih =>
      rw [attempts]
      cases hl : w.list scope i with
      | requestError =>
          have := (ih (i + 1) m).1
          simp only [requests, List.countP_cons, Event.isGetList, if_true] at this ⊢
          exact ⟨by omega, fun _ => by omega⟩
      | body b =>
          simp only
          split
          · simp [requests, Event.isGetList]
          · have := (ih (i + 1) (unmarshalList b m)).1
            simp only [requests, List.countP_cons, Event.isGetList, if_true,
              Bool.false_eq_true, if_false, Nat.add_zero] at this ⊢
            exact ⟨by omega, fun _ => by omega⟩

/-! ## The keys of `ids` are distinct -/

theorem mapSet_keys (ids : Ids) (key : String) (c : context) :
    (mapSet ids key c).map Prod.fst =
      if key ∈ ids.map Prod.fst then ids.map Prod.fst else ids.map Prod.fst ++ [key] := by
  induction ids with
  | nil => simp [mapSet]
  | cons e ids ih =>
      obtain ⟨k, v⟩ := e
      by_cases hk : k = key
      · subst hk
        simp [mapSet]
      · have hk' : ¬ key = k := fun h => hk h.symm
        simp only [mapSet, hk, if_false, List.map_cons, ih, List.mem_cons, hk', false_or]
        split <;> simp

theorem mapSet_nodup (ids : Ids) (key : String) (c : context)
    (h : (ids.map Prod.fst).Nodup) : ((mapSet ids key c).map Prod.fst).Nodup := by
  rw [mapSet_keys]
  split
  · exact h
  · rename_i hmem
    rw [List.nodup_append]
    refine ⟨h, by simp, ?_⟩
    intro a ha hb
    simp only [List.mem_singleton] at hb
    subst hb
    exact hmem ha

theorem track_nodup (w : World) (ref : String) (m : List Obj) (s : Ids × Nat)
    (h : (s.1.map Prod.fst).Nodup) : ((track w ref m s).1.map Prod.fst).Nodup := by
  induction m generalizing s with
  | nil => exact h
  | cons items rest ih =>
      obtain ⟨ids, clock⟩ := s
      simp only [track]
      split
      · split
        · split
          · exact ih _ (mapSet_nodup _ _ _ h)
          · exact ih _ h
        · exact ih _ h
      · exact ih _ h

/-- The keys of the collection that discovery builds are distinct. -/
theorem discover_nodup (w : World) (baseurl ref : String) (ss : List String) (d : Disc)
    (h : (d.ids.map Prod.fst).Nodup) :
    ((discover w baseurl ref ss d).1.ids.map Prod.fst).Nodup := by
  induction ss generalizing d with
  | nil => exact h
  | cons s ss ih =>
      simp only [discover]
      exact ih _ (track_nodup _ _ _ _ h)

theorem discovered_nodup (w : World) (f : Flags) :
    ((discovered w f).1.ids.map Prod.fst).Nodup :=
  discover_nodup _ _ _ _ _ (by simp)

/-! ## What discovery tracks -/

/-- Below one million the key of a numeric id is its decimal string. -/
theorem formatFloat_small (n : Fin 9007199254740992) (h : n.val < 10 ^ 6) :
    formatFloat n = Nat.repr n.val := by
  have hlen : (Nat.toDigits 10 n.val).length ≤ 6 := Nat.repr_length n.val 6 (by decide) h
  unfold formatFloat
  simp only
  rw [if_pos (by omega)]
  rfl

theorem mem_keys_mapSet (ids : Ids) (key s : String) (c : context) :
    s ∈ (mapSet ids key c).map Prod.fst ↔ s ∈ ids.map Prod.fst ∨ s = key := by
  rw [mapSet_keys]
  split
  · rename_i h
    constructor
    · exact Or.inl
    · rintro (h' | rfl)
      · exact h'
      · exact h
  · simp

/-- The keys after a list is processed: the keys from before, and the printed
ids of the records of the list that carry the caller's ref. -/
theorem track_keys (w : World) (ref : String) (m : List Obj) (ids : Ids) (clock : Nat)
    (s : String) :
    s ∈ (track w ref m (ids, clock)).1.map Prod.fst ↔
      s ∈ ids.map Prod.fst ∨
        ∃ items ∈ m, items.lookup "ref" = some (.str ref) ∧
          ∃ bld, items.lookup "id" = some bld ∧ sprintV bld = s := by
  induction m generalizing ids clock with
  | nil => simp [track]
  | cons items rest ih =>
      simp only [track]
      cases hr : items.lookup "ref" with
      | none =>
          simp only [ih, List.mem_cons, exists_eq_or_imp, hr]
          simp
      | some r =>
          simp only
          by_cases href : r = JVal.str ref
          · subst href
            simp only [if_true]
            cases hb : items.lookup "id" with
            | none =>
                simp only [ih, List.mem_cons, exists_eq_or_imp, hr, hb]
                simp
            | some bld =>
                simp only [ih, mem_keys_mapSet, List.mem_cons, exists_eq_or_imp, hr, hb,
                  true_and, Option.some.injEq, exists_eq_left']
                constructor
                · rintro ((h | h) | h)
                  · exact Or.inl h
                  · exact Or.inr (Or.inl h.symm)
                  · exact Or.inr (Or.inr h)
                · rintro (h | h | h)
                  · exact Or.inl (Or.inl h)
                  · exact Or.inl (Or.inr h.symm)
                  · exact Or.inr h
          · simp only [href, if_false, ih, List.mem_cons, exists_eq_or_imp, hr,
              Option.some.injEq, false_and, false_or]

theorem mapSet_all_pending (ids : Ids) (key : String) (start : Nat)
    (h : ∀ e ∈ ids, e.2.done = false) :
    ∀ e ∈ mapSet ids key { done := false, start := start }, e.2.done = false := by
  induction ids with
  | nil => simp [mapSet]
  | cons e ids ih =>
      obtain ⟨k, v⟩ := e
      intro x hx
      by_cases hk : k = key
      · simp only [mapSet, hk, if_true, List.mem_cons] at hx
        rcases hx with rfl | hx
        · rfl
        · exact h x (by simp [hx])
      · simp only [mapSet, hk, if_false, List.mem_cons] at hx
        rcases hx with rfl | hx
        · exact h _ (by simp)
        · exact ih (fun e he => h e (by simp [he])) x hx

/-- Every record that discovery enters is not done. -/
theorem track_all_pending (w : World) (ref : String) (m : List Obj) (s : Ids × Nat)
    (h : ∀ e ∈ s.1, e.2.done = false) : ∀ e ∈ (track w ref m s).1, e.2.done = false := by
  induction m generalizing s with
  | nil => exact h
  | cons items rest ih =>
      obtain ⟨ids, clock⟩ := s
      simp only [track]
      split
      · split
        · split
          · exact ih _ (mapSet_all_pending _ _ _ h)
          · exact ih _ h
        · exact ih _ h
      · exact ih _ h

/-! ## The claims -/

/-- C1, at a tag build with the version `1.2.3.4`: the flags pass, and the
trigger POST is reached. -/
theorem C1_version_gate_witness :
    exampleFlags.tag = true ∧ exampleFlags.ref ≠ "" ∧ exampleFlags.token ≠ "" ∧
      exampleFlags.url ≠ "" ∧
      ∃ u data, Event.post u data ∈ (main deafWorld 0 exampleFlags).trace :=
  ⟨rfl, by decide, by decide, by decide,
    (C1_version_gate deafWorld 0 exampleFlags rfl (by decide) (by decide) (by decide)).1.mpr
      ⟨['1'], ['2'], ['3'], ['4'], ⟨by simp, by decide⟩, ⟨by simp, by decide⟩,
        ⟨by simp, by decide⟩, ⟨by simp, by decide⟩, by decide⟩⟩

/-- C2, at a tag build: the form of the one POST has `ref`, `token` and
`variables[FULL_VERSION]`. -/
theorem C2_form_fields_witness :
    buildForm exampleFlags = some [("ref", ["main"]), ("token", ["t"]),
        ("variables[FULL_VERSION]", ["1.2.3.4"])] ∧
      (main deafWorld 0 exampleFlags).trace.filter Event.isPost =
        [Event.post exampleFlags.url [("ref", ["main"]), ("token", ["t"]),
          ("variables[FULL_VERSION]", ["1.2.3.4"])]] :=
  ⟨by decide, (C2_form_fields deafWorld 0 exampleFlags _ (by decide)).1⟩

/-- C3. In a run whose trigger POST was answered, so that the URL holds no
control character: when the URL has a prefix of the shape "http", one or more
characters, "projects/", one or more digits, "/", the derived base is such a
prefix and the longest one; for the URL of the specification it is
`http://gitlab.example.com/api/v4/projects/42/`; and for a URL without
`projects/<digits>/` the derivation yields nothing, and the waiting run exits
with code 1 having made no request but the POST. -/
theorem C3_base_url (w : World) (fuel : Nat) (f : Flags) (hadm : Admissible w f)
    (htrig : w.trigger.isSome = true) :
    (∀ p, ClaimedBase p → p <+: f.url.toList →
      ClaimedBase (findBase f.url).toList ∧ (findBase f.url).toList <+: f.url.toList ∧
        ∀ q, ClaimedBase q → q <+: f.url.toList →
          q.length ≤ (findBase f.url).toList.length) ∧
      findBase "http://gitlab.example.com/api/v4/projects/42/trigger/pipeline" =
        "http://gitlab.example.com/api/v4/projects/42/" ∧
      (LacksProject f.url.toList →
        findBase f.url = "" ∧
          (f.wait = true →
            (main w fuel f).exit = .code 1 ∧
              ∀ e ∈ (main w fuel f).trace, e.isPost = true)) := by
  have hctl : hasCTL f.url = false := by
    cases h : hasCTL f.url with
    | false => rfl
    | true =>
        rw [hadm h] at htrig
        exact Bool.noConfusion htrig
  refine ⟨fun p hp hpre => ?_, by decide, fun hl => ?_⟩
  · obtain ⟨h1, h2, h3⟩ :=
      findBase_longest f.url p (baseShape_of_claimed f.url hctl p hp hpre) hpre
    exact ⟨claimed_of_baseShape _ h1, h2,
      fun q hq hqpre => h3 q (baseShape_of_claimed f.url hctl q hq hqpre) hqpre⟩
  · have hb := findBase_of_lacks f.url hl
    exact ⟨hb, fun hwait => main_of_base_empty w fuel f hwait htrig hb⟩

/-- C3, at the URL of the specification and at a URL without a project. -/
theorem C3_base_url_witness :
    Admissible deafWorld exampleFlags ∧ deafWorld.trigger.isSome = true ∧
      (ClaimedBase exampleBase.toList ∧ exampleBase.toList <+: exampleFlags.url.toList ∧
        ClaimedBase (findBase exampleFlags.url).toList) ∧
      (LacksProject "http://x".toList ∧
        (main deafWorld 0 { exampleFlags with url := "http://x" }).exit = .code 1) := by
  have hadm : Admissible deafWorld exampleFlags := fun h => absurd h (by decide)
  have hadm' : Admissible deafWorld { exampleFlags with url := "http://x" } :=
    fun h => absurd h (by decide)
  have hshape : ClaimedBase exampleBase.toList :=
    ⟨"://gitlab.example.com/api/v4/".toList, "42".toList, by decide,
      ⟨by decide, by decide⟩, by decide⟩
  have hpre : exampleBase.toList <+: exampleFlags.url.toList :=
    ⟨"trigger/pipeline".toList, by decide⟩
  have hlacks : LacksProject "http://x".toList := by
    rintro ⟨pre, ds, post, -, h⟩
    have := congrArg List.length h
    simp at this
    omega
  exact ⟨hadm, rfl,
    ⟨hshape, hpre, ((C3_base_url deafWorld 0 exampleFlags hadm rfl).1 _ hshape hpre).1⟩,
    hlacks,
    (((C3_base_url deafWorld 0 { exampleFlags with url := "http://x" } hadm' rfl).2.2
      hlacks).2 rfl).1⟩

/-- C4, at the failing input: the list of the specification tracks the key
`101`, but the numeric id 1234567 is tracked under `1.234567e+06`, which is
not its decimal string. -/
theorem C4_large_id_key :
    (track deafWorld "main" [buildItem "main" 101, buildItem "other" 202] ([], 0)).1 =
        [("101", { done := false, start := 0 })] ∧
      (track deafWorld "main" [buildItem "main" 1234567] ([], 0)).1 =
        [("1.234567e+06", { done := false, start := 0 })] ∧
      Nat.repr 1234567 ≠ "1.234567e+06" := by
  decide

/-- C5, at the failing inputs.  The scope `running` leaves its list in `m`;
the first reply for `pending` does not parse and the second is the first with
a non-empty list, yet one request is made for `pending`, not two, and the list
that is filtered is the one of `running`: build 202 is never tracked.  And
when `pending` lists `{"id":101}`, a record without a ref, after `running`
listed `{"ref":"main","id":7}`, the record that is filtered is not the one
returned: it has kept the ref of the other scope, and 101 is tracked.  With
four empty lists and a fifth with a build the fifth list is used, after five
requests. -/
theorem C5_stale_list_cuts_attempts :
    (scriptWorld.list "pending" 0 = .body .invalid ∧
      scriptWorld.list "pending" 1 = .body (.decoded [.object (buildItem "main" 202)]) ∧
      requests (attempts scriptWorld exampleBase "pending" 5 0
        (attempts scriptWorld exampleBase "running" 5 0 []).1).2 = 1 ∧
      (attempts scriptWorld exampleBase "pending" 5 0
        (attempts scriptWorld exampleBase "running" 5 0 []).1).1 = [buildItem "main" 101] ∧
      (discover scriptWorld exampleBase "main" scopes
        { m := [], ids := [], clock := 0 }).1.ids.map Prod.fst = ["101"]) ∧
      (mergeWorld.list "pending" 0 = .body (.decoded [.object [("id", .num 101)]]) ∧
        (discover mergeWorld exampleBase "main" scopes
          { m := [], ids := [], clock := 0 }).1.ids.map Prod.fst = ["7", "101"]) ∧
      (requests (attempts fifthWorld exampleBase "pending" 5 0 []).2 = 5 ∧
        (attempts fifthWorld exampleBase "pending" 5 0 []).1 = [buildItem "main" 101]) := by
  decide

/-- C6 as stated fails: the provider reports the status `success`, but the
reply has no `name` and no `ref`, the guard of line 175 is not passed and the
record stays not done. -/
theorem C6_counterexample :
    namelessWorld.detail 0 "101" = .body (.object [("status", .str "success")]) ∧
      (pollRound namelessWorld exampleBase 0 onePending).1.ids =
        [("101", { done := false, start := 7 })] := by
  decide

/-- C6, amended. In a poll round, for a tracked record that is not done: when
the detail reply is an object with `ref`, `name` and `status`, the record is
done after the round if and only if that status is `success`, `failed` or
`canceled`, and it keeps its start; on a request error, on a parse error and
on the reply `null` the record is left as it was.  Hence the record of a build
whose replies carry `ref`, `name` and the statuses `pending`, `running`,
`success` is not done after the first two rounds and done after the third,
where the loop returns with code 0. -/
theorem C6_done_iff_terminal (w : World) (baseurl : String) (round : Nat) (st : Poll)
    (key : String) (c : context) (hkeys : (st.ids.map Prod.fst).Nodup)
    (hc : st.ids.lookup key = some c) (hnd : c.done = false) :
    (∀ o r n s, w.detail round key = .body (.object o) → o.lookup "ref" = some r →
      o.lookup "name" = some n → o.lookup "status" = some s →
      ∃ c', (pollRound w baseurl round st).1.ids.lookup key = some c' ∧
        c'.start = c.start ∧
        (c'.done = true ↔ s = .str "success" ∨ s = .str "failed" ∨ s = .str "canceled")) ∧
      (w.detail round key = .requestError ∨ w.detail round key = .body .invalid ∨
          w.detail round key = .body .null →
        (pollRound w baseurl round st).1.ids.lookup key = some c) ∧
      ((pollLoop statusWorld exampleBase 1 0 onePending).2.1.ids =
          [("101", { done := false, start := 7 })] ∧
        (pollLoop statusWorld exampleBase 2 0 onePending).2.1.ids =
          [("101", { done := false, start := 7 })] ∧
        (pollLoop statusWorld exampleBase 3 0 onePending).2.1.ids =
          [("101", { done := true, start := 7 })] ∧
        (pollLoop statusWorld exampleBase 3 0 onePending).1 = .code 0) := by
  obtain ⟨st1, hst1, hround⟩ := pollRound_lookup w baseurl round st key c hkeys hc
  refine ⟨?_, ?_, by decide⟩
  · intro o r n s hrep hr hn hs
    refine ⟨{ done := isTerminal s, start := c.start }, ?_, rfl, isTerminal_iff s⟩
    rw [hround]
    exact visit_object w baseurl round key st1 c hst1 hnd o r n s hrep hr hn hs
  · intro hrep
    rw [hround, visit_error w baseurl round key st1 hrep]
    exact hst1

/-- C6, at the round in which the build is reported `success`: the record is
done after it. -/
theorem C6_done_iff_terminal_witness :
    (onePending.ids.map Prod.fst).Nodup ∧
      onePending.ids.lookup "101" = some { done := false, start := 7 } ∧
      ∃ c', (pollRound statusWorld exampleBase 2 onePending).1.ids.lookup "101" = some c' ∧
        c'.start = 7 ∧ c'.done = true := by
  refine ⟨by decide, by decide, ?_⟩
  obtain ⟨c', h1, h2, h3⟩ :=
    (C6_done_iff_terminal statusWorld exampleBase 2 onePending "101"
      { done := false, start := 7 } (by decide) (by decide) rfl).1
      _ (.str "main") (.str "build") (.str "success") rfl (by decide) (by decide) (by decide)
  exact ⟨c', h1, h2, h3.mpr (Or.inl rfl)⟩

/-- C7. The poll loop ends at the end of a round exactly when every record is
done then: it returns with the trace of the round and nothing after it;
otherwise a sleep of 10 seconds and another round follow.  No detail request
is made for a record that is done.  And once every record is done in the
middle of a round, the rest of the round and the loop make no request. -/
theorem C7_loop_exit (w : World) (baseurl : String) (fuel round : Nat) (st : Poll) :
    (allDone (pollRound w baseurl round st).1.ids = true →
      pollLoop w baseurl (fuel + 1) round st =
        (.code 0, (pollRound w baseurl round st).1, (pollRound w baseurl round st).2)) ∧
      (allDone (pollRound w baseurl round st).1.ids = false →
        (pollLoop w baseurl (fuel + 1) round st).1 =
            (pollLoop w baseurl fuel (round + 1) (pollRound w baseurl round st).1).1 ∧
          (pollLoop w baseurl (fuel + 1) round st).2.2 =
            (pollRound w baseurl round st).2 ++ .sleep 10 ::
              (pollLoop w baseurl fuel (round + 1) (pollRound w baseurl round st).1).2.2) ∧
      (∀ b key c, st.ids.lookup key = some c → c.done = true →
        Event.getBuild b key ∉ (pollLoop w baseurl fuel round st).2.2) ∧
      (∀ pre post, permute (w.picks round) (st.ids.map Prod.fst) = pre ++ post →
        allDone (visitAll w baseurl round pre st).1.ids = true →
        pollLoop w baseurl (fuel + 1) round st =
          (.code 0, (visitAll w baseurl round pre st).1,
            (visitAll w baseurl round pre st).2)) := by
  refine ⟨?_, ?_, ?_, ?_⟩
  · intro h
    rw [pollLoop]
    simp only [h, if_true]
  · intro h
    rw [pollLoop]
    simp only [h, Bool.false_eq_true, if_false, and_self]
  · intro b key c hc hd hmem
    obtain ⟨c', hc', hd'⟩ := pollLoop_get_not_done w baseurl fuel round st b key hmem
    rw [hc] at hc'
    injection hc' with hc'
    subst hc'
    rw [hd] at hd'
    exact Bool.noConfusion hd'
  · intro pre post hsplit h
    have hround : pollRound w baseurl round st =
        ((visitAll w baseurl round pre st).1, (visitAll w baseurl round pre st).2) := by
      unfold pollRound
      rw [hsplit, visitAll_append, visitAll_of_allDone _ _ _ _ _ h]
      simp
    rw [pollLoop]
    simp only [hround, h, if_true]

/-- C7, at the build that is reported `success` in the third round: the loop
ends there with code 0 after three requests and two sleeps, and asks nothing
about a record that is done. -/
theorem C7_loop_exit_witness :
    allDone (pollRound statusWorld exampleBase 2 onePending).1.ids = true ∧
      pollLoop statusWorld exampleBase 1 2 onePending =
        (.code 0, (pollRound statusWorld exampleBase 2 onePending).1,
          (pollRound statusWorld exampleBase 2 onePending).2) ∧
      (pollLoop statusWorld exampleBase 3 0 onePending).2.2 =
        [.getBuild exampleBase "101", .sleep 10, .getBuild exampleBase "101", .sleep 10,
          .getBuild exampleBase "101"] ∧
      Event.getBuild exampleBase "101" ∉
        (pollLoop statusWorld exampleBase 5 0
          { ids := [("101", { done := true, start := 7 })], m2 := [] }).2.2 :=
  ⟨by decide, (C7_loop_exit statusWorld exampleBase 0 2 onePending).1 (by decide), by decide,
    (C7_loop_exit statusWorld exampleBase 5 0
      { ids := [("101", { done := true, start := 7 })], m2 := [] }).2.2.1
      exampleBase "101" { done := true, start := 7 } (by decide) rfl⟩

/-- C8, at the failing input: when the list requests fail on the way, the five
requests of a scope follow one another with no sleep between them. -/
theorem C8_no_pause_after_request_error :
    deafWorld.list "running" 0 = .requestError ∧
      (attempts deafWorld exampleBase "running" 5 0 []).2 =
        [.getList exampleBase "running", .getList exampleBase "running",
          .getList exampleBase "running", .getList exampleBase "running",
          .getList exampleBase "running"] := by
  decide

/-- C9. When discovery ends with an empty collection no detail request is ever
made, and the waiting run whose trigger was answered exits with code 1; and
through every round, and through the whole poll loop, each record keeps its
key and its start, in the same place, and a record that is done stays done. -/
theorem C9_collection_invariant (w : World) (fuel : Nat) (f : Flags) :
    ((discovered w f).1.ids = [] →
      (∀ b key, Event.getBuild b key ∉ (main w fuel f).trace) ∧
        (f.wait = true → w.trigger.isSome = true → (main w fuel f).exit = .code 1)) ∧
      (∀ baseurl round st,
        List.Forall₂ Kept st.ids (pollRound w baseurl round st).1.ids ∧
          List.Forall₂ Kept st.ids (pollLoop w baseurl fuel round st).2.1.ids ∧
          st.ids.map Prod.fst = (pollLoop w baseurl fuel round st).2.1.ids.map Prod.fst) := by
  constructor
  · intro hempty
    unfold discovered at hempty
    constructor
    · intro b key hmem
      unfold main at hmem
      split at hmem
      · simp at hmem
      · split at hmem
        · simp at hmem
        · split at hmem
          · simp at hmem
          · split at hmem
            · simp at hmem
            · simp only at hmem
              split at hmem
              · simp at hmem
              · split at hmem
                · simp only [List.mem_cons] at hmem
                  rcases hmem with hmem | hmem
                  · exact Event.noConfusion hmem
                  · rcases discover_events _ _ _ _ _ _ hmem with ⟨s, -, h⟩ | h <;>
                      exact Event.noConfusion h
                · rename_i hlen
                  rw [hempty] at hlen
                  simp at hlen
    · intro hwait htrig
      obtain ⟨status, hst⟩ := Option.isSome_iff_exists.mp htrig
      unfold main
      split
      · rfl
      · simp only [hst, hwait, Bool.not_true, Bool.false_eq_true, if_false]
        split
        · rfl
        · split
          · rfl
          · rw [hempty]
            simp
  · intro baseurl round st
    exact ⟨visitAll_kept _ _ _ _ _, pollLoop_kept _ _ _ _ _,
      forall₂_kept_keys (pollLoop_kept _ _ _ _ _)⟩

/-- C9, at a run in which every list request fails: nothing is tracked, the
process exits with code 1 and has made no detail request. -/
theorem C9_collection_invariant_witness :
    (discovered deafWorld exampleFlags).1.ids = [] ∧
      (main deafWorld 3 exampleFlags).exit = .code 1 ∧
      Event.getBuild exampleBase "101" ∉ (main deafWorld 3 exampleFlags).trace :=
  ⟨by decide,
    ((C9_collection_invariant deafWorld 3 exampleFlags).1 (by decide)).2 rfl rfl,
    ((C9_collection_invariant deafWorld 3 exampleFlags).1 (by decide)).1 exampleBase "101"⟩

/-- C10, at the failing input: the scope `running` leaves a list with a build
in `m`; the first reply for `pending` does not parse, `m` still holds that
list, and the attempt loop of `pending` ends after this one attempt, with four
attempts left. -/
theorem C10_parse_error_ends_loop :
    staleWorld.list "pending" 0 = .body .invalid ∧
      (discover staleWorld exampleBase "main" scopes { m := [], ids := [], clock := 0 }).2 =
        [.getList exampleBase "running", .getList exampleBase "pending"] ∧
      (attempts staleWorld exampleBase "pending" 5 0 [buildItem "main" 101]).2 =
        [.getList exampleBase "pending"] ∧
      (attempts staleWorld exampleBase "pending" 5 0 []).2.length = 10 := by
  decide

end GitlabTrigger
